import Mathlib

/-!
Verification development for the SkyFrame feed-selection, watermark,
perceptual-hash and verification subsystems.

Python strings are modelled as `List Char`, bytes as `List Nat`,
timestamps (`datetime`) as `Int` (the code only compares, subtracts a
fixed number of days, and round-trips timestamps through strings; `Int`
with integer rendering/parsing is order- and round-trip-faithful to
that usage).  SQL queries are modelled as list pipelines over the
catalog; `ORDER BY random()` results are inputs (`shuffled`,
`fallbackShuffled`), which the theorems constrain to be permutations of
the catalog where that matters.
-/

namespace SkyFrame

/-- The character list of a string literal; model of a Python `str`. -/
def chars (s : String) : List Char := s.data

/-- An image row: the three columns the feed engine reads
(`images.id`, `images.user_id`, `images.observed_at`). -/
structure Img where
  id : Int
  userId : Int
  observedAt : Int
deriving DecidableEq, Repr

/-- A `feed_seen` row (`user_id`, `image_id`, `seen_at`). -/
structure SeenRow where
  userId : Int
  imageId : Int
  seenAt : Int
deriving DecidableEq, Repr

/-- `FeedCursor` dataclass from `skyframe/feed.py`. -/
structure FeedCursor where
  prioritized : Option (List Char) := none
  global_new : Option (List Char) := none
deriving DecidableEq, Repr

/-- `FeedSelection` dataclass from `skyframe/feed.py`.  The Python
`seen_ids` set is modelled as the list it was built from; only
membership is ever used. -/
structure FeedSelection where
  images : List Img
  next_cursor : List Char
  seen_ids : List Int
  has_more : Bool
deriving DecidableEq, Repr

/-- Python `str.split(sep)` for a one-character separator
(the code only splits on "|" and "_"). -/
def splitOnChar (sep : Char) : List Char → List (List Char)
  | [] => [[]]
  | c :: rest =>
    if c = sep then [] :: splitOnChar sep rest
    else
      match splitOnChar sep rest with
      | [] => [[c]]
      | s :: ss => (c :: s) :: ss

/-- Python `"|" in cursor`. -/
def hasBar : List Char → Bool
  | [] => false
  | c :: rest => c = '|' || hasBar rest

/-- Python `sub in cursor` for the two-character needles "p=" and "g=". -/
def hasPair (a b : Char) : List Char → Bool
  | c :: d :: rest => (c = a && d = b) || hasPair a b (d :: rest)
  | _ => false

/-- Value of a decimal digit character. -/
def decDigit? (c : Char) : Option Nat :=
  if '0' ≤ c ∧ c ≤ '9' then some (c.toNat - 48) else none

def digitsToNatAux : List Char → Nat → Option Nat
  | [], acc => some acc
  | c :: rest, acc =>
    match decDigit? c with
    | some d => digitsToNatAux rest (acc * 10 + d)
    | none => none

/-- Model of Python `int(s)` on the strings this codebase produces
(an optional minus sign followed by decimal digits; Python also strips
whitespace and accepts "+", which never occurs in emitted cursors). -/
def parseInt : List Char → Option Int
  | [] => none
  | '-' :: rest =>
    if rest = [] then none else (digitsToNatAux rest 0).map (fun n => -(n : Int))
  | s => (digitsToNatAux s 0).map (fun n => (n : Int))

def natToCharsAux : Nat → Nat → List Char
  | 0, _ => []
  | fuel + 1, n =>
    if n = 0 then [] else natToCharsAux fuel (n / 10) ++ [Char.ofNat (48 + n % 10)]

/-- Decimal rendering of a natural number (model of Python `str(n)`). -/
def natToChars (n : Nat) : List Char :=
  if n = 0 then ['0'] else natToCharsAux (n + 1) n

/-- Decimal rendering of an integer; model of `datetime.isoformat()` /
`str(id)` for our `Int`-modelled timestamps and ids (faithful in that it
is injective, contains no "_", and round-trips through `parseInt`). -/
def intToChars : Int → List Char
  | .ofNat n => natToChars n
  | .negSucc n => '-' :: natToChars (n + 1)

/-- Python `value or None` on a string. -/
def emptyToNone (s : List Char) : Option (List Char) :=
  if s = [] then none else some s

/-- `parse_feed_cursor` from `skyframe/feed.py` (lines 27-41). -/
def parse_feed_cursor (cursor : Option (List Char)) : FeedCursor :=
  match cursor with
  | none => {}
  | some c =>
    if c = [] then {}
    else if hasBar c && (hasPair 'p' '=' c || hasPair 'g' '=' c) then
      (splitOnChar '|' c).foldl
        (fun acc part =>
          match part with
          | 'p' :: '=' :: rest => { acc with prioritized := emptyToNone rest }
          | 'g' :: '=' :: rest => { acc with global_new := emptyToNone rest }
          | _ => acc)
        {}
    else if c = chars ("random") then {}
    else { global_new := some c }

/-- Python `x or ''` on an optional string. -/
def optStr (o : Option (List Char)) : List Char := o.getD []

/-- `format_feed_cursor` from `skyframe/feed.py` (lines 44-47). -/
def format_feed_cursor (prioritized global_new : Option (List Char)) : List Char :=
  if optStr prioritized = [] ∧ optStr global_new = [] then []
  else chars ("p=") ++ optStr prioritized ++ chars ("|g=") ++ optStr global_new

/-- `_parse_cursor_point` from `skyframe/feed.py` (lines 50-57): a cursor
value is "{timestamp}_{id}"; any `ValueError` (wrong number of parts,
unparId) yields `(None, None)`, modelled as `none`. -/
def parse_cursor_point (v : Option (List Char)) : Option (Int × Int) :=
  match v with
  | none => none
  | some s =>
    if s = [] then none
    else
      match splitOnChar '_' s with
      | [a, b] =>
        match parseInt a, parseInt b with
        | some t, some i => some (t, i)
        | _, _ => none
      | _ => none

/-- The keyset filter of `_apply_cursor` (lines 60-67). -/
def cursorKeep (t i : Int) (img : Img) : Prop :=
  img.observedAt < t ∨ (img.observedAt = t ∧ img.id < i)

instance (t i : Int) (img : Img) : Decidable (cursorKeep t i img) := by
  unfold cursorKeep; infer_instance

/-- `_apply_cursor` from `skyframe/feed.py` (lines 60-67). -/
def apply_cursor (q : List Img) (v : Option (List Char)) : List Img :=
  match parse_cursor_point v with
  | none => q
  | some (t, i) => q.filter (fun img => decide (cursorKeep t i img))

/-- `_prioritized_filter` from `skyframe/feed.py` (lines 70-78): `None`
when both sets are empty, otherwise the OR of the conditions added. -/
def prioritized_filter (liked following : List Int) : Option (Img → Bool) :=
  if liked = [] ∧ following = [] then none
  else some (fun img =>
    (decide (liked ≠ []) && liked.contains img.id) ||
    (decide (following ≠ []) && following.contains img.userId))

/-- `_pop_next_valid` from `skyframe/feed.py` (lines 81-96): first pool
entry not blocked by the per-uploader cap or the consecutive cap is
removed and returned (the Python `pool.pop(idx)` mutation is modelled by
returning the remaining pool). -/
def pop_next_valid (pool : List Img) (counts : Int → Nat) (lastUp : Option Int)
    (consec k m : Nat) : Option (Img × List Img) :=
  match pool with
  | [] => none
  | img :: rest =>
    if (0 < k ∧ k ≤ counts img.userId) ∨
       (0 < m ∧ lastUp = some img.userId ∧ m ≤ consec) then
      (pop_next_valid rest counts lastUp consec k m).map fun p => (p.1, img :: p.2)
    else some (img, rest)

/-- One selection step of `_blend_feed` (lines 116-160): try the
preferred pool, fall back to the other; the flag records whether the
pick came from the prioritized pool. -/
def blend_pick (pri glob : List Img) (counts : Int → Nat) (lastUp : Option Int)
    (consec k m : Nat) (takePri : Bool) :
    Option (Img × List Img × List Img × Bool) :=
  if takePri then
    match pop_next_valid pri counts lastUp consec k m with
    | some (img, rest) => some (img, rest, glob, true)
    | none =>
      match pop_next_valid glob counts lastUp consec k m with
      | some (img, rest) => some (img, pri, rest, false)
      | none => none
  else
    match pop_next_valid glob counts lastUp consec k m with
    | some (img, rest) => some (img, pri, rest, false)
    | none =>
      match pop_next_valid pri counts lastUp consec k m with
      | some (img, rest) => some (img, rest, glob, true)
      | none => none

/-- Result of `_blend_feed`: the emitted page, what remains of each
(mutated) pool, and the last item emitted from each stream. -/
structure BlendOut where
  output : List Img
  priLeft : List Img
  globLeft : List Img
  lastPrioritized : Option Img
  lastGlobal : Option Img
deriving DecidableEq, Repr

/-- The `while` loop of `_blend_feed` (lines 116-178).  `fuel` is
`per_page` minus the number of items already emitted, so `fuel = 0`
is exactly `len(output) < per_page` failing. -/
def blend_loop (fuel : Nat) (pri glob : List Img) (counts : Int → Nat)
    (lastUp : Option Int) (consec prioritizedTaken target k m : Nat)
    (lastP lastG : Option Img) : BlendOut :=
  match fuel with
  | 0 => ⟨[], pri, glob, lastP, lastG⟩
  | fuel + 1 =>
    if pri = [] ∧ glob = [] then ⟨[], pri, glob, lastP, lastG⟩
    else
      match blend_pick pri glob counts lastUp consec k m
          (decide (prioritizedTaken < target)) with
      | none => ⟨[], pri, glob, lastP, lastG⟩
      | some (img, pri', glob', fromPri) =>
        let counts' := fun u => if u = img.userId then counts u + 1 else counts u
        let consec' := if lastUp = some img.userId then consec + 1 else 1
        let lastUp' := if lastUp = some img.userId then lastUp else some img.userId
        let taken' := if fromPri then prioritizedTaken + 1 else prioritizedTaken
        let lastP' := if fromPri then some img else lastP
        let lastG' := if fromPri then lastG else some img
        let r := blend_loop fuel pri' glob' counts' lastUp' consec' taken' target k m lastP' lastG'
        { r with output := img :: r.output }

/-- `_blend_feed` from `skyframe/feed.py` (lines 99-178). -/
def blend_feed (prioritized global_new : List Img) (per_page target k m : Nat) : BlendOut :=
  blend_loop per_page prioritized global_new (fun _ => 0) none 0 0 target k m none none

/-- `_fresh_cutoff` from `skyframe/feed.py` (lines 181-184):
`None` unless `days > 0`, else `now - timedelta(days)`. -/
def fresh_cutoff (now days : Int) : Option Int :=
  if days ≤ 0 then none else some (now - days)

/-- Sort relation of `_load_seen_ids`: `seen_at` descending.  SQL leaves
the order of equal timestamps unspecified; insertion sort fixes one. -/
def seenDesc (a b : SeenRow) : Prop := b.seenAt ≤ a.seenAt

instance : DecidableRel seenDesc := fun a b => by unfold seenDesc; infer_instance

/-- `_load_seen_ids` from `skyframe/feed.py` (lines 187-193). -/
def load_seen_ids (ledger : List SeenRow) (uid retentionDays : Int)
    (maxIds : Nat) (now : Int) : List Int :=
  let cutoff := fresh_cutoff now retentionDays
  let q := ledger.filter fun r => decide (r.userId = uid)
  let q := match cutoff with
    | some c => q.filter fun r => decide (c ≤ r.seenAt)
    | none => q
  ((List.insertionSort seenDesc q).take maxIds).map (·.imageId)

/-- `_persist_seen_ids` from `skyframe/feed.py` (lines 196-223); the
two `datetime.utcnow()` calls are modelled as the single instant `now`.
Appending models `bulk_save_objects`; the final filter models the
retention `delete`. -/
def persist_seen_ids (ledger : List SeenRow) (uid : Int) (imageIds : List Int)
    (retentionDays now : Int) : List SeenRow :=
  if imageIds = [] then ledger
  else
    let existing := (ledger.filter fun r =>
      decide (r.userId = uid) && imageIds.contains r.imageId).map (·.imageId)
    let newRows := (imageIds.filter fun i => ! existing.contains i).map
      fun i => SeenRow.mk uid i now
    let ledger1 := ledger ++ newRows
    if 0 < retentionDays then
      ledger1.filter fun r =>
        ! (decide (r.userId = uid) && decide (r.seenAt < now - retentionDays))
    else ledger1

/-- Sort relation of the prioritized query: `observed_at` descending
with `id` descending as tie-break. -/
def feedDesc (a b : Img) : Prop :=
  b.observedAt < a.observedAt ∨ (a.observedAt = b.observedAt ∧ b.id ≤ a.id)

instance : DecidableRel feedDesc := fun a b => by unfold feedDesc; infer_instance

/-- The guarded id-exclusion step `if ids: query.filter(~Image.id.in_(ids))`
used for both the seen set and the prioritized-id set. -/
def exclFilter (ids : List Int) (q : List Img) : List Img :=
  if ids = [] then q else q.filter fun img => ! ids.contains img.id

/-- The guarded freshness step `if cutoff: query.filter(Image.observed_at >= cutoff)`. -/
def freshFilter (cutoff : Option Int) (q : List Img) : List Img :=
  match cutoff with
  | some c => q.filter fun img => decide (c ≤ img.observedAt)
  | none => q

/-- The cursor step of the prioritized query: applied only when
seen-tracking is off (`if not use_seen`, line 262). -/
def cursorStage (useSeen : Bool) (cursorP : Option (List Char)) (q : List Img) : List Img :=
  if useSeen then q else apply_cursor q cursorP

/-- The prioritized candidate query of `build_feed_selection`
(lines 254-268): filter, optional freshness cutoff, optional seen
exclusion, keyset cursor only when seen-tracking is off, order newest
first, limit. -/
def prioritized_candidates (catalog : List Img) (liked following : List Int)
    (cutoff : Option Int) (seenIds : List Int) (useSeen : Bool)
    (cursorP : Option (List Char)) (limit : Nat) : List Img :=
  match prioritized_filter liked following with
  | none => []
  | some pred =>
    (List.insertionSort feedDesc
      (cursorStage useSeen cursorP
        (exclFilter seenIds (freshFilter cutoff (catalog.filter pred))))).take limit

/-- The discovery query of `build_feed_selection` (lines 272-281):
`ORDER BY random()` is the input order of `shuffled`, then the two
guarded exclusions, then the limit. -/
def random_candidates (shuffled : List Img) (seenIds prioritizedIds : List Int)
    (limit : Nat) : List Img :=
  (exclFilter prioritizedIds (exclFilter seenIds shuffled)).take limit

/-- `int(round(per_page * (pct / 100.0)))` with the clamp of line 242,
as exact rational banker's rounding (Python `round` rounds halves to
even; the `float` representation error of `pct / 100.0` is ignored). -/
def prioritized_target (perPage : Nat) (pct : Int) : Nat :=
  let num := perPage * (max 0 (min pct 100)).toNat
  let q := num / 100
  let r := num % 100
  if r < 50 then q else if 50 < r then q + 1 else if q % 2 = 0 then q else q + 1

/-- The keyword parameters of `build_feed_selection` other than the
cursor (which the theorems vary separately). -/
structure FeedParams where
  liked_ids : List Int
  following_ids : List Int
  per_page : Nat
  fresh_days : Int
  prioritized_pct : Int
  candidate_multiplier : Nat
  max_per_uploader : Nat
  max_consecutive : Nat
  seen_enabled : Bool
  seen_user_id : Option Int
  seen_retention_days : Int
  seen_max_ids : Nat
deriving Repr

/-- Candidate-gathering half of `build_feed_selection` (lines 242-281):
the prioritized pool, the discovery pool and the loaded seen ids. -/
def feed_pools (catalog : List Img) (ledger : List SeenRow) (shuffled : List Img)
    (now : Int) (p : FeedParams) (cursor : Option (List Char)) :
    List Img × List Img × List Int :=
  let useSeen := p.seen_enabled && p.seen_user_id.isSome
  let limit := max (p.per_page * p.candidate_multiplier) p.per_page
  let cursorState := parse_feed_cursor cursor
  let cutoff := fresh_cutoff now p.fresh_days
  let seenIds := if useSeen then
      match p.seen_user_id with
      | some uid => load_seen_ids ledger uid p.seen_retention_days p.seen_max_ids now
      | none => []
    else []
  let pc := prioritized_candidates catalog p.liked_ids p.following_ids cutoff seenIds
    useSeen cursorState.prioritized limit
  let rc := random_candidates shuffled seenIds (pc.map (·.id)) limit
  (pc, rc, seenIds)

/-- `build_feed_selection` from `skyframe/feed.py` (lines 226-311).
`shuffled` / `fallbackShuffled` stand for the two `ORDER BY random()`
draws.  Note `_blend_feed` consumes the candidate lists in place, so
`has_more` (line 291) compares the leftover pools with the page. -/
def build_feed_selection (catalog : List Img) (ledger : List SeenRow)
    (shuffled fallbackShuffled : List Img) (now : Int) (p : FeedParams)
    (cursor : Option (List Char)) : FeedSelection :=
  let useSeen := p.seen_enabled && p.seen_user_id.isSome
  let target := prioritized_target p.per_page p.prioritized_pct
  let pools := feed_pools catalog ledger shuffled now p cursor
  let b := blend_feed pools.1 pools.2.1 p.per_page target p.max_per_uploader p.max_consecutive
  let images := b.output
  let hasMore := decide (images.length < b.priLeft.length + b.globLeft.length)
  let cursorState := parse_feed_cursor cursor
  let nextCursor :=
    if useSeen then (if hasMore then chars ("seen") else [])
    else
      let pcur := match b.lastPrioritized with
        | some lp =>
          if (prioritized_filter p.liked_ids p.following_ids).isSome then
            some (intToChars lp.observedAt ++ '_' :: intToChars lp.id)
          else cursorState.prioritized
        | none => cursorState.prioritized
      let gcur := if b.globLeft = [] then cursorState.global_new else some (chars ("random"))
      let nc := format_feed_cursor pcur gcur
      if images = [] then [] else nc
  if images = [] then
    let fb := fallbackShuffled.take p.per_page
    ⟨fb, if fb = [] then [] else chars ("random"), pools.2.2, decide (fb ≠ [])⟩
  else ⟨images, nextCursor, pools.2.2, hasMore⟩

/-! ## Watermark extraction (`skyframe/storage.py`) -/

/-- Lowercasing of ASCII letters; model of Python `str.lower()` on the
hex tokens the regex captures. -/
def lowerChar (c : Char) : Char :=
  if 'A' ≤ c ∧ c ≤ 'Z' then Char.ofNat (c.toNat + 32) else c

/-- Characters accepted by the regex class `[0-9a-fA-F]`, by code point
(48-57 are the digits, 97-102 lowercase a-f, 65-70 uppercase A-F). -/
def isHexChar (c : Char) : Prop :=
  (48 ≤ c.toNat ∧ c.toNat ≤ 57) ∨ (97 ≤ c.toNat ∧ c.toNat ≤ 102) ∨
    (65 ≤ c.toNat ∧ c.toNat ≤ 70)

instance (c : Char) : Decidable (isHexChar c) := by unfold isHexChar; infer_instance

/-- Strip a literal from the front of a string, or fail. -/
def dropLit : List Char → List Char → Option (List Char)
  | [], s => some s
  | _ :: _, [] => none
  | p :: ps, c :: cs => if c = p then dropLit ps cs else none

/-- A match attempt, at the start of `s`, of the regex the source
actually compiles.  The source (storage.py lines 186 and 198) uses the
raw string literal for SkyFrame followed by backslash backslash s plus,
so the pattern is: the literal text "SkyFrame" then one literal
backslash (from the doubled backslash), then one or more letters s,
then the capture group of one or more hex characters. -/
def matchBrokenAt (s : List Char) : Option (List Char) :=
  match dropLit (chars ("SkyFrame\\")) s with
  | none => none
  | some r1 =>
    let sRun := r1.takeWhile (fun c => decide (c = 's'))
    if sRun = [] then none
    else
      let r2 := r1.drop sRun.length
      let hexRun := r2.takeWhile (fun c => decide (isHexChar c))
      if hexRun = [] then none else some hexRun

/-- `re.search` of that pattern: the match at the leftmost position
where one exists, returning `match.group(1)`. -/
def searchBroken : List Char → Option (List Char)
  | [] => none
  | c :: rest =>
    match matchBrokenAt (c :: rest) with
    | some h => some h
    | none => searchBroken rest

/-- Byte sequence of an ASCII string. -/
def asciiBytes (s : List Char) : List Nat := s.map (·.toNat)

/-- Model of `bytes.decode("utf-8", "ignore")`, faithful on the ASCII
bytes the comment format uses (non-ASCII bytes are dropped; real UTF-8
"ignore" also drops them unless they form valid multi-byte sequences,
which cannot produce any of the ASCII characters the regex matches). -/
def asciiDecode (data : List Nat) : List Char :=
  (data.filter (· < 128)).map Char.ofNat

/-- `bytes.find(marker)` followed by taking the suffix from the first
occurrence (`segment[pos:]`), or `none` when `find` returns -1. -/
def findMarkerSuffix (marker : List Nat) : List Nat → Option (List Nat)
  | [] => if marker = [] then some [] else none
  | x :: rest =>
    if marker.isPrefixOf (x :: rest) then some (x :: rest)
    else findMarkerSuffix marker rest

/-- Big-endian 16-bit segment length (`int.from_bytes(data[idx+2:idx+4], "big")`). -/
def be16 (hi lo : Nat) : Nat := hi * 256 + lo

/-- The marker byte string of storage.py line 164: "SkyFrame" and a space. -/
def skyMarker : List Nat := asciiBytes (chars ("SkyFrame "))

/-- The JPEG segment walk of `read_watermark_comment_bytes`
(storage.py lines 163-189), as a fuel recursion; the loop advances
`idx` by at least one per iteration, so `data.length + 1` fuel always
suffices and the out-of-fuel branch is unreachable.  `segEnd` is
`segment_start + segment_length - 2` (natural subtraction matches the
empty Python slice when the stored length is below 2). -/
def segEnd (data : List Nat) (idx : Nat) : Nat :=
  idx + 4 + be16 (data.getD (idx + 2) 0) (data.getD (idx + 3) 0) - 2

def scanLoop : Nat → List Nat → Nat → Option (List Char)
  | 0, _, _ => none
  | fuel + 1, data, idx =>
    if idx + 4 < data.length then
      if data.getD idx 0 ≠ 255 then scanLoop fuel data (idx + 1)
      else
        if data.getD (idx + 1) 0 = 218 ∨ data.getD (idx + 1) 0 = 217 then none
        else
          if data.length < segEnd data idx then none
          else
            if data.getD (idx + 1) 0 = 254 then
              match findMarkerSuffix skyMarker
                  ((data.drop (idx + 4)).take (segEnd data idx - (idx + 4))) with
              | some suffix =>
                match searchBroken (asciiDecode suffix) with
                | some h => some (h.map lowerChar)
                | none => scanLoop fuel data (segEnd data idx)
              | none => scanLoop fuel data (segEnd data idx)
            else scanLoop fuel data (segEnd data idx)
    else none

/-- The raw-byte half of `read_watermark_comment_bytes` (lines 163-189). -/
def readWatermarkScan (data : List Nat) : Option (List Char) :=
  scanLoop (data.length + 1) data 0

/-- `read_watermark_comment_bytes` (storage.py lines 163-203).  The
fallback re-opens the bytes with PIL and reads `image.info["comment"]`;
PIL is an external library, so the decoded comment it would return is
the oracle parameter `pilComment` (`none` models a missing comment or
any exception, both of which yield `None`). -/
def read_watermark_comment_bytes (data : List Nat) (pilComment : Option (List Char)) :
    Option (List Char) :=
  match readWatermarkScan data with
  | some h => some h
  | none =>
    match pilComment with
    | some c => (searchBroken c).map (·.map lowerChar)
    | none => none

/-- Modelled from the spec: the comment text `apply_watermark_to_file`
(storage.py line 153) embeds in the saved JPEG, the literal "SkyFrame",
a space, and the watermark id. -/
def watermarkComment (wid : List Char) : List Char := chars ("SkyFrame ") ++ wid

/-- Modelled from the spec: the persisted JPEG bytes, as far as the
extractor inspects them — PIL's own serialization is external, but the
spec fixes that the file carries a single COM (0xFFFE) comment segment
holding `watermarkComment`; SOI and EOI markers surround it. -/
def savedJpegBytes (wid : List Char) : List Nat :=
  let body := asciiBytes (watermarkComment wid)
  [255, 216, 255, 254, (body.length + 2) / 256, (body.length + 2) % 256] ++
    body ++ [255, 217]

/-! ## Perceptual hash (`skyframe/storage.py` lines 62-119) -/

/-- Sum of a list of rationals. -/
def sumQ : List ℚ → ℚ
  | [] => 0
  | x :: rest => x + sumQ rest

/-- `_dct_1d` (storage.py lines 69-78): `output[k] = alpha[k] *
sum over n of values[n] * cos_table[k][n]`.  The cosine table and alpha
are parameters here exactly as in the source; `_phash_from_image`
builds them from real cosines, which the field ℚ abstracts. -/
def dct_1d (values : List ℚ) (cosTable : List (List ℚ)) (alpha : List ℚ) : List ℚ :=
  let size := values.length
  (List.range size).map fun k =>
    sumQ ((List.range size).map fun n =>
      values.getD n 0 * (cosTable.getD k []).getD n 0) * alpha.getD k 0

/-- `_dct_2d` (storage.py lines 81-90): row pass then column pass. -/
def dct_2d (matrix : List (List ℚ)) (cosTable : List (List ℚ)) (alpha : List ℚ) :
    List (List ℚ) :=
  let size := matrix.length
  let rowDct := matrix.map fun r => dct_1d r cosTable alpha
  (List.range size).map fun row =>
    (List.range size).map fun col =>
      (dct_1d ((List.range size).map fun r => (rowDct.getD r []).getD col 0)
        cosTable alpha).getD row 0

/-- Ascending sort used to model Python `sorted` (the sorted list of a
multiset of rationals is unique, so the algorithm is irrelevant). -/
def sortQ (l : List ℚ) : List ℚ := List.insertionSort (· ≤ ·) l

/-- Lowercase hex digit character. -/
def hexDigitChar (n : Nat) : Char :=
  if n < 10 then Char.ofNat (48 + n) else Char.ofNat (87 + n)

def natHexAux : Nat → Nat → List Char
  | 0, _ => []
  | fuel + 1, n =>
    if n = 0 then [] else natHexAux fuel (n / 16) ++ [hexDigitChar (n % 16)]

/-- Minimal-width lowercase hex rendering of a natural number. -/
def natHex (n : Nat) : List Char :=
  if n = 0 then ['0'] else natHexAux (n + 1) n

/-- Python `f"{value:016x}"` for the 64-bit hash values produced here:
lowercase hex digits left-padded with zeros to width 16. -/
def formatHex16 (n : Nat) : List Char :=
  List.replicate (16 - (natHex n).length) '0' ++ natHex n

/-- The 8 by 8 low-frequency block of `_phash_from_image` (line 102),
row-major. -/
def phashBlock (dct : List (List ℚ)) : List ℚ :=
  (List.range 8).flatMap fun row =>
    (List.range 8).map fun col => (dct.getD row []).getD col 0

/-- Lines 103-108 of `_phash_from_image`: median of `block[1:]`
(index `len // 2` of the sorted 63 values), one bit per block entry
(`1` iff the value exceeds the median), shift-or accumulation. -/
def phashVal (dct : List (List ℚ)) : Nat :=
  let block := phashBlock dct
  let medianValues := sortQ (block.drop 1)
  let median := medianValues.getD (medianValues.length / 2) 0
  (block.map fun v => if median < v then 1 else 0).foldl (fun a b => a * 2 + b) 0

/-- `_phash_from_image` from the decoded, resized grayscale grid on:
DCT with the given tables, block, median, bits, 16-hex rendering
(grayscale conversion and Lanczos resampling happen in PIL, outside
this repository). -/
def phash_from_matrix (small : List (List ℚ)) (cosTable : List (List ℚ))
    (alpha : List ℚ) : List Char :=
  formatHex16 (phashVal (dct_2d small cosTable alpha))

/-- Row-major coordinates of the 8 by 8 block. -/
def blockPairs : List (Nat × Nat) :=
  (List.range 8).flatMap fun row => (List.range 8).map fun col => (row, col)

/-- Modelled from the spec (section 4.1, item 2): exclude the DC
coefficient at row 0, column 0 from the median computation; the median
of the remaining 63 coefficients; one bit per coefficient of all 64
including DC, set iff the coefficient exceeds the median; concatenated
row-major into a 64-bit integer; rendered as exactly 16 lowercase hex
characters, most significant nibble first. -/
def phashSpecOfDct (dct : List (List ℚ)) : List Char :=
  let coeff := fun (rc : Nat × Nat) => (dct.getD rc.1 []).getD rc.2 0
  let others := (blockPairs.filter fun rc => decide (rc ≠ (0, 0))).map coeff
  let sorted := sortQ others
  let median := sorted.getD ((sorted.length - 1) / 2) 0
  let bits := blockPairs.map fun rc => if median < coeff rc then (1 : Nat) else 0
  let value := (bits.enum.map fun ib => ib.2 * 2 ^ (63 - ib.1)).sum
  (List.range 16).map fun i => hexDigitChar (value / 16 ^ (15 - i) % 16)

/-- Modelled from the spec: the whole phash contract of section 4.1
applied to the same DCT stage. -/
def phashSpec (small : List (List ℚ)) (cosTable : List (List ℚ))
    (alpha : List ℚ) : List Char :=
  phashSpecOfDct (dct_2d small cosTable alpha)

/-! ## Verification scan (`skyframe/api/routes.py`) -/

/-- A catalog row of the similarity query (lines 223-242): its id and
the two stored fingerprints (the query keeps only rows where both are
non-null); the other provenance columns do not influence selection. -/
structure Candidate where
  id : Int
  signature_phash : List Char
  signature_dhash : List Char
deriving DecidableEq, Repr

def hexCharVal (c : Char) : Nat :=
  if c ≤ '9' then c.toNat - 48
  else if c ≤ 'F' then c.toNat - 55
  else c.toNat - 87

/-- Model of Python `int(s, 16)` on fingerprint strings: the value when
every character is a hex digit and the string is nonempty, otherwise
`none` (the `ValueError` path; Python also accepts prefixes and
underscores that never occur in stored fingerprints). -/
def hexVal? (s : List Char) : Option Nat :=
  if s = [] then none
  else if s.all (fun c => decide (isHexChar c)) then
    some (s.foldl (fun acc c => acc * 16 + hexCharVal c) 0)
  else none

def popCountAux : Nat → Nat → Nat
  | 0, _ => 0
  | fuel + 1, n => if n = 0 then 0 else n % 2 + popCountAux fuel (n / 2)

/-- `int.bit_count()`. -/
def popCount (n : Nat) : Nat := popCountAux (n + 1) n

/-- `_hamming_distance` from `api/routes.py` (lines 83-89): `None` for
empty or unparseable operands, else the popcount of the xor. -/
def hamming_distance (left right : List Char) : Option Nat :=
  if left = [] ∨ right = [] then none
  else
    match hexVal? left, hexVal? right with
    | some a, some b => some (popCount (a ^^^ b))
    | _, _ => none

/-- The candidate scan of `verify_file` (lines 243-256): fold in catalog
order, skipping unparseable rows, keeping the first strictly better
qualifying candidate together with both distances. -/
def scanBest (probeP probeD : List Char) (maxP maxD : Nat) :
    List Candidate → Option (Candidate × Nat × Nat) → Option (Candidate × Nat × Nat)
  | [], best => best
  | c :: rest, best =>
    match hamming_distance probeP c.signature_phash,
        hamming_distance probeD c.signature_dhash with
    | some dp, some dd =>
      if dp ≤ maxP ∧ dd ≤ maxD then
        match best with
        | none => scanBest probeP probeD maxP maxD rest (some (c, dp, dd))
        | some (_b, bp, bd) =>
          if dp + dd < bp + bd then scanBest probeP probeD maxP maxD rest (some (c, dp, dd))
          else scanBest probeP probeD maxP maxD rest best
      else scanBest probeP probeD maxP maxD rest best
    | _, _ => scanBest probeP probeD maxP maxD rest best

/-- The decision fields of the `verify_file` JSON responses (the
provenance columns echoed alongside are opaque to the claims).
`similar` is `none` in branches whose JSON omits the key. -/
structure VerifyResult where
  valid : Bool
  similar : Option Bool
  phash_distance : Option Nat
  dhash_distance : Option Nat
  image_id : Option Int
deriving DecidableEq, Repr

/-- The decision logic of `verify_file` (routes.py lines 195-306) after
hashing: `exact` is the `signature_sha256` lookup result and
`similarityEnabled` the `VERIFY_SIMILARITY_ENABLED` flag. -/
def verify_file (exact : Option Int) (similarityEnabled : Bool)
    (probeP probeD : List Char) (candidates : List Candidate)
    (maxP maxD : Nat) : VerifyResult :=
  match exact with
  | some i => ⟨true, none, none, none, some i⟩
  | none =>
    if ¬ similarityEnabled then ⟨false, none, none, none, none⟩
    else
      match scanBest probeP probeD maxP maxD candidates none with
      | none => ⟨false, some false, none, none, none⟩
      | some (c, dp, dd) => ⟨false, some true, some dp, some dd, some c.id⟩

/-- A candidate qualifies (spec section 4.4, step 3): both Hamming
distances are defined and within the configured maxima. -/
def qualifies (probeP probeD : List Char) (maxP maxD : Nat) (c : Candidate) : Prop :=
  ∃ dp dd, hamming_distance probeP c.signature_phash = some dp ∧
    hamming_distance probeD c.signature_dhash = some dd ∧ dp ≤ maxP ∧ dd ≤ maxD

/-- Count of page entries from a given uploader. -/
def uploaderCount (u : Int) (l : List Img) : Nat :=
  l.countP fun img => decide (img.userId = u)

/-- Number of ledger rows for the pair (viewer, image). -/
def seenCount (u i : Int) (ledger : List SeenRow) : Nat :=
  ledger.countP fun r => decide (r.userId = u ∧ r.imageId = i)

/-- The `feed_seen` uniqueness invariant (`uq_feed_seen_user_image`):
at most one row per (viewer, image) pair. -/
def atMostOnePerPair (ledger : List SeenRow) : Prop :=
  ∀ u i, seenCount u i ledger ≤ 1

/-! ## Helper lemmas about the blend loop -/

theorem pop_next_valid_mem {pool : List Img} {counts : Int → Nat} {lastUp : Option Int}
    {consec k m : Nat} {img : Img} {rest : List Img}
    (h : pop_next_valid pool counts lastUp consec k m = some (img, rest)) :
    img ∈ pool ∧ ∀ x ∈ rest, x ∈ pool := by
  induction pool generalizing rest with
  | nil => simp [pop_next_valid] at h
  | cons a as ih =>
    rw [pop_next_valid] at h
    split at h
    · cases hr : pop_next_valid as counts lastUp consec k m with
      | none => rw [hr] at h; simp at h
      | some p =>
        obtain ⟨b, brest⟩ := p
        rw [hr] at h
        simp only [Option.map_some', Option.some.injEq, Prod.mk.injEq] at h
        obtain ⟨h1, h2⟩ := h
        obtain ⟨hmem, hsub⟩ := ih (h1 ▸ hr)
        constructor
        · exact List.mem_cons_of_mem _ hmem
        · intro x hx
          rw [← h2] at hx
          rcases List.mem_cons.mp hx with hxa | hxp
          · exact hxa ▸ List.mem_cons_self _ _
          · exact List.mem_cons_of_mem _ (hsub x hxp)
    · simp only [Option.some.injEq, Prod.mk.injEq] at h
      obtain ⟨h1, h2⟩ := h
      subst h1; subst h2
      exact ⟨List.mem_cons_self _ _, fun x hx => List.mem_cons_of_mem _ hx⟩

theorem pop_next_valid_cap {pool : List Img} {counts : Int → Nat} {lastUp : Option Int}
    {consec k m : Nat} {img : Img} {rest : List Img} (hk : 0 < k)
    (h : pop_next_valid pool counts lastUp consec k m = some (img, rest)) :
    counts img.userId < k := by
  induction pool generalizing rest with
  | nil => simp [pop_next_valid] at h
  | cons a as ih =>
    rw [pop_next_valid] at h
    split at h
    · cases hr : pop_next_valid as counts lastUp consec k m with
      | none => rw [hr] at h; simp at h
      | some p =>
        obtain ⟨b, brest⟩ := p
        rw [hr] at h
        simp only [Option.map_some', Option.some.injEq, Prod.mk.injEq] at h
        obtain ⟨h1, _⟩ := h
        exact ih (h1 ▸ hr)
    · rename_i hcond
      simp only [Option.some.injEq, Prod.mk.injEq] at h
      obtain ⟨h1, _⟩ := h
      subst h1
      push_neg at hcond
      exact hcond.1 hk

theorem pop_next_valid_zero {pool : List Img} {counts : Int → Nat} {lastUp : Option Int}
    {consec : Nat} :
    pop_next_valid pool counts lastUp consec 0 0 =
      match pool with
      | [] => none
      | a :: as => some (a, as) := by
  cases pool with
  | nil => rfl
  | cons a as => simp [pop_next_valid]

theorem blend_pick_mem {pri glob : List Img} {counts : Int → Nat} {lastUp : Option Int}
    {consec k m : Nat} {takePri : Bool} {img : Img} {pri' glob' : List Img} {fromPri : Bool}
    (h : blend_pick pri glob counts lastUp consec k m takePri =
      some (img, pri', glob', fromPri)) :
    (img ∈ pri ∨ img ∈ glob) ∧ (∀ x ∈ pri', x ∈ pri) ∧ (∀ x ∈ glob', x ∈ glob) ∧
      (0 < k → counts img.userId < k) := by
  cases takePri with
  | true =>
    rw [blend_pick, if_pos rfl] at h
    cases hp : pop_next_valid pri counts lastUp consec k m with
    | some q =>
      obtain ⟨i0, r0⟩ := q
      rw [hp] at h
      simp only [Option.some.injEq, Prod.mk.injEq] at h
      obtain ⟨h1, h2, h3, _⟩ := h
      obtain ⟨hmem, hsub⟩ := pop_next_valid_mem (h1 ▸ hp)
      subst h2; subst h3
      exact ⟨Or.inl hmem, fun x hx => hsub x hx, fun x hx => hx,
        fun hk => pop_next_valid_cap hk (h1 ▸ hp)⟩
    | none =>
      rw [hp] at h
      cases hg : pop_next_valid glob counts lastUp consec k m with
      | some q =>
        obtain ⟨i0, r0⟩ := q
        rw [hg] at h
        simp only [Option.some.injEq, Prod.mk.injEq] at h
        obtain ⟨h1, h2, h3, _⟩ := h
        obtain ⟨hmem, hsub⟩ := pop_next_valid_mem (h1 ▸ hg)
        subst h2; subst h3
        exact ⟨Or.inr hmem, fun x hx => hx, fun x hx => hsub x hx,
          fun hk => pop_next_valid_cap hk (h1 ▸ hg)⟩
      | none => rw [hg] at h; simp at h
  | false =>
    rw [blend_pick, if_neg (by simp)] at h
    cases hg : pop_next_valid glob counts lastUp consec k m with
    | some q =>
      obtain ⟨i0, r0⟩ := q
      rw [hg] at h
      simp only [Option.some.injEq, Prod.mk.injEq] at h
      obtain ⟨h1, h2, h3, _⟩ := h
      obtain ⟨hmem, hsub⟩ := pop_next_valid_mem (h1 ▸ hg)
      subst h2; subst h3
      exact ⟨Or.inr hmem, fun x hx => hx, fun x hx => hsub x hx,
        fun hk => pop_next_valid_cap hk (h1 ▸ hg)⟩
    | none =>
      rw [hg] at h
      cases hp : pop_next_valid pri counts lastUp consec k m with
      | some q =>
        obtain ⟨i0, r0⟩ := q
        rw [hp] at h
        simp only [Option.some.injEq, Prod.mk.injEq] at h
        obtain ⟨h1, h2, h3, _⟩ := h
        obtain ⟨hmem, hsub⟩ := pop_next_valid_mem (h1 ▸ hp)
        subst h2; subst h3
        exact ⟨Or.inl hmem, fun x hx => hsub x hx, fun x hx => hx,
          fun hk => pop_next_valid_cap hk (h1 ▸ hp)⟩
      | none => rw [hp] at h; simp at h

theorem uploaderCount_cons (u : Int) (a : Img) (l : List Img) :
    uploaderCount u (a :: l) =
      uploaderCount u l + (if a.userId = u then 1 else 0) := by
  unfold uploaderCount
  rw [List.countP_cons]
  split <;> simp_all

theorem blend_loop_cap {k : Nat} (hk : 0 < k) :
    ∀ (fuel : Nat) (pri glob : List Img) (counts : Int → Nat) (lastUp : Option Int)
      (consec taken target m : Nat) (lastP lastG : Option Img) (u : Int),
      counts u + uploaderCount u
          (blend_loop fuel pri glob counts lastUp consec taken target k m lastP lastG).output ≤
        max (counts u) k := by
  intro fuel
  induction fuel with
  | zero =>
    intro pri glob counts lastUp consec taken target m lastP lastG u
    simp [blend_loop, uploaderCount, le_max_left]
  | succ n ih =>
    intro pri glob counts lastUp consec taken target m lastP lastG u
    rw [blend_loop]
    split
    · simp [uploaderCount, le_max_left]
    · cases hp : blend_pick pri glob counts lastUp consec k m (decide (taken < target)) with
      | none => simp [uploaderCount, le_max_left]
      | some q =>
        obtain ⟨img, pri', glob', fromPri⟩ := q
        simp only
        rw [uploaderCount_cons]
        have hcap : counts img.userId < k := (blend_pick_mem hp).2.2.2 hk
        have ihx := ih pri' glob'
          (fun v => if v = img.userId then counts v + 1 else counts v)
          (if lastUp = some img.userId then lastUp else some img.userId)
          (if lastUp = some img.userId then consec + 1 else 1)
          (if fromPri then taken + 1 else taken) target m
          (if fromPri then some img else lastP)
          (if fromPri then lastG else some img) u
        simp only at ihx
        by_cases hu : img.userId = u
        · rw [if_pos hu]
          rw [if_pos hu.symm] at ihx
          have hcap' : counts u < k := hu ▸ hcap
          have hmax : max (counts u + 1) k = k := by omega
          rw [hmax] at ihx
          have hmax2 : max (counts u) k = k := by omega
          rw [hmax2]
          omega
        · rw [if_neg hu]
          rw [if_neg (fun hcontra => hu hcontra.symm)] at ihx
          omega

theorem blend_loop_mem :
    ∀ (fuel : Nat) (pri glob : List Img) (counts : Int → Nat) (lastUp : Option Int)
      (consec taken target k m : Nat) (lastP lastG : Option Img) (x : Img),
      x ∈ (blend_loop fuel pri glob counts lastUp consec taken target k m lastP lastG).output →
        x ∈ pri ∨ x ∈ glob := by
  intro fuel
  induction fuel with
  | zero => intro pri glob counts lastUp consec taken target k m lastP lastG x hx; simp [blend_loop] at hx
  | succ n ih =>
    intro pri glob counts lastUp consec taken target k m lastP lastG x hx
    rw [blend_loop] at hx
    split at hx
    · simp at hx
    · cases hp : blend_pick pri glob counts lastUp consec k m (decide (taken < target)) with
      | none => rw [hp] at hx; simp at hx
      | some q =>
        obtain ⟨img, pri', glob', fromPri⟩ := q
        rw [hp] at hx
        simp only [List.mem_cons] at hx
        obtain ⟨hm, hsubp, hsubg, _⟩ := blend_pick_mem hp
        rcases hx with hx | hx
        · subst hx; exact hm
        · rcases ih pri' glob' _ _ _ _ _ _ _ _ _ x hx with h | h
          · exact Or.inl (hsubp x h)
          · exact Or.inr (hsubg x h)

theorem blend_loop_length_le :
    ∀ (fuel : Nat) (pri glob : List Img) (counts : Int → Nat) (lastUp : Option Int)
      (consec taken target k m : Nat) (lastP lastG : Option Img),
      (blend_loop fuel pri glob counts lastUp consec taken target k m lastP lastG).output.length ≤
        fuel := by
  intro fuel
  induction fuel with
  | zero => intro pri glob counts lastUp consec taken target k m lastP lastG; simp [blend_loop]
  | succ n ih =>
    intro pri glob counts lastUp consec taken target k m lastP lastG
    rw [blend_loop]
    split
    · simp
    · cases hp : blend_pick pri glob counts lastUp consec k m (decide (taken < target)) with
      | none => simp
      | some q =>
        obtain ⟨img, pri', glob', fromPri⟩ := q
        simp only [List.length_cons]
        exact Nat.succ_le_succ (ih pri' glob' _ _ _ _ _ _ _ _ _)

/-! ## Helper lemmas about the candidate queries -/

theorem mem_exclFilter {ids : List Int} {q : List Img} {x : Img}
    (h : x ∈ exclFilter ids q) : x ∈ q ∧ x.id ∉ ids := by
  unfold exclFilter at h
  split at h
  · rename_i hids; subst hids; exact ⟨h, by simp⟩
  · have h2 := List.mem_filter.mp h
    refine ⟨h2.1, ?_⟩
    simpa using h2.2

theorem mem_freshFilter {cutoff : Option Int} {q : List Img} {x : Img}
    (h : x ∈ freshFilter cutoff q) : x ∈ q := by
  unfold freshFilter at h
  cases cutoff with
  | none => exact h
  | some c => exact (List.mem_filter.mp h).1

theorem mem_apply_cursor {q : List Img} {v : Option (List Char)} {x : Img}
    (h : x ∈ apply_cursor q v) : x ∈ q := by
  unfold apply_cursor at h
  cases hpc : parse_cursor_point v with
  | none => rw [hpc] at h; exact h
  | some ti =>
    obtain ⟨t, i⟩ := ti
    rw [hpc] at h
    exact (List.mem_filter.mp h).1

theorem mem_cursorStage {useSeen : Bool} {cursorP : Option (List Char)} {q : List Img}
    {x : Img} (h : x ∈ cursorStage useSeen cursorP q) : x ∈ q := by
  unfold cursorStage at h
  split at h
  · exact h
  · exact mem_apply_cursor h

theorem mem_prioritized_candidates {catalog : List Img} {liked following : List Int}
    {cutoff : Option Int} {seenIds : List Int} {useSeen : Bool}
    {cursorP : Option (List Char)} {limit : Nat} {x : Img}
    (h : x ∈ prioritized_candidates catalog liked following cutoff seenIds useSeen cursorP limit) :
    x ∈ catalog ∧ x.id ∉ seenIds := by
  unfold prioritized_candidates at h
  cases hpf : prioritized_filter liked following with
  | none => rw [hpf] at h; simp at h
  | some pred =>
    rw [hpf] at h
    have h1 := List.mem_of_mem_take h
    have h2 := (List.perm_insertionSort feedDesc _).mem_iff.mp h1
    have h3 := mem_exclFilter (mem_cursorStage h2)
    exact ⟨(List.mem_filter.mp (mem_freshFilter h3.1)).1, h3.2⟩

theorem mem_random_candidates {shuffled : List Img} {seenIds prioritizedIds : List Int}
    {limit : Nat} {x : Img}
    (h : x ∈ random_candidates shuffled seenIds prioritizedIds limit) :
    x ∈ shuffled ∧ x.id ∉ seenIds ∧ x.id ∉ prioritizedIds := by
  unfold random_candidates at h
  have h1 := mem_exclFilter (List.mem_of_mem_take h)
  have h2 := mem_exclFilter h1.1
  exact ⟨h2.1, h2.2, h1.2⟩

theorem feed_pools_fst (catalog : List Img) (ledger : List SeenRow) (shuffled : List Img)
    (now : Int) (p : FeedParams) (cursor : Option (List Char)) :
    (feed_pools catalog ledger shuffled now p cursor).1 =
      prioritized_candidates catalog p.liked_ids p.following_ids
        (fresh_cutoff now p.fresh_days) (feed_pools catalog ledger shuffled now p cursor).2.2
        (p.seen_enabled && p.seen_user_id.isSome) (parse_feed_cursor cursor).prioritized
        (max (p.per_page * p.candidate_multiplier) p.per_page) := rfl

theorem feed_pools_snd (catalog : List Img) (ledger : List SeenRow) (shuffled : List Img)
    (now : Int) (p : FeedParams) (cursor : Option (List Char)) :
    (feed_pools catalog ledger shuffled now p cursor).2.1 =
      random_candidates shuffled (feed_pools catalog ledger shuffled now p cursor).2.2
        ((feed_pools catalog ledger shuffled now p cursor).1.map (·.id))
        (max (p.per_page * p.candidate_multiplier) p.per_page) := rfl

theorem feed_pools_seen {catalog : List Img} {ledger : List SeenRow} {shuffled : List Img}
    {now : Int} {p : FeedParams} {cursor : Option (List Char)} {uid : Int}
    (hen : p.seen_enabled = true) (huid : p.seen_user_id = some uid) :
    (feed_pools catalog ledger shuffled now p cursor).2.2 =
      load_seen_ids ledger uid p.seen_retention_days p.seen_max_ids now := by
  simp [feed_pools, hen, huid]

/-! ## Claim C2: per-uploader cap -/

/-- C2, counterexample: with `max_per_uploader = 1`, a catalog of two
images by uploader 10 that the viewer has already seen makes the blend
empty; the random fallback then returns both images, so uploader 10
appears twice in the page, violating the claimed cap on fallback
pages. -/
theorem c2_counterexample :
    let p : FeedParams := ⟨[], [], 2, 0, 0, 1, 1, 0, true, some 1, 0, 10⟩
    let catalog : List Img := [⟨1, 10, 5⟩, ⟨2, 10, 4⟩]
    let ledger : List SeenRow := [⟨1, 1, 0⟩, ⟨1, 2, 0⟩]
    0 < p.max_per_uploader ∧
      p.max_per_uploader <
        uploaderCount 10
          (build_feed_selection catalog ledger catalog catalog 1000 p none).images := by
  decide

/-- C2, amended: with `max_per_uploader = k > 0`, no uploader appears
more than k times among the images selected by the blend; pages served
from a non-empty blend are exactly that selection, while the
empty-blend random fallback is exempt from the cap (spec section 4.3
step 6 samples it "ignoring all filters"). -/
theorem c2_amended (catalog : List Img) (ledger : List SeenRow)
    (shuffled fallbackShuffled : List Img) (now : Int) (p : FeedParams)
    (cursor : Option (List Char)) (hk : 0 < p.max_per_uploader) :
    let pools := feed_pools catalog ledger shuffled now p cursor
    let b := blend_feed pools.1 pools.2.1 p.per_page
      (prioritized_target p.per_page p.prioritized_pct) p.max_per_uploader p.max_consecutive
    (∀ u, uploaderCount u b.output ≤ p.max_per_uploader) ∧
      (b.output ≠ [] →
        (build_feed_selection catalog ledger shuffled fallbackShuffled now p cursor).images
          = b.output) := by
  intro pools b
  constructor
  · intro u
    have h := blend_loop_cap hk p.per_page pools.1 pools.2.1 (fun _ => 0) none 0 0
      (prioritized_target p.per_page p.prioritized_pct) p.max_consecutive none none u
    simpa [blend_feed] using h
  · intro hne
    simp only [build_feed_selection]
    split
    · next hempty => exact absurd hempty hne
    · rfl

/-- C2, witness for the amended theorem at a one-image catalog with the
cap set to 1. -/
theorem c2_amended_witness :
    uploaderCount 10
      (blend_feed (feed_pools [⟨1, 10, 5⟩] [] [⟨1, 10, 5⟩] 0
          ⟨[], [], 1, 0, 0, 1, 1, 0, false, none, 0, 10⟩ none).1
        (feed_pools [⟨1, 10, 5⟩] [] [⟨1, 10, 5⟩] 0
          ⟨[], [], 1, 0, 0, 1, 1, 0, false, none, 0, 10⟩ none).2.1
        1 (prioritized_target 1 0) 1 0).output ≤ 1 :=
  (c2_amended [⟨1, 10, 5⟩] [] [⟨1, 10, 5⟩] [⟨1, 10, 5⟩] 0
    ⟨[], [], 1, 0, 0, 1, 1, 0, false, none, 0, 10⟩ none (by decide)).1 10

/-! ## Claim C3: cursor determinism -/

/-- C3, counterexample: an anonymous viewer (seen-tracking off), a
one-image catalog, page size 1.  The first call emits image 1 and
returns a cursor; the second call, passing exactly that cursor over
the unchanged catalog, emits image 1 again — the discovery stream
re-randomizes instead of resuming, so the cursor does not prevent
repeats. -/
theorem c3_counterexample :
    let p : FeedParams := ⟨[], [], 1, 0, 0, 1, 0, 0, false, none, 0, 10⟩
    let catalog : List Img := [⟨1, 10, 100⟩]
    let sel1 := build_feed_selection catalog [] catalog catalog 1000 p none
    let sel2 := build_feed_selection catalog [] catalog catalog 1000 p (some sel1.next_cursor)
    (⟨1, 10, 100⟩ : Img) ∈ sel1.images ∧ (⟨1, 10, 100⟩ : Img) ∈ sel2.images := by
  decide

/-- C3, amended: the cursor alone never prevents repeats (both streams
can re-serve an id, as the counterexample shows).  De-duplication is
provided by the seen ledger instead: with seen-tracking enabled, if
every id emitted by the first call is in the seen set the second call
loads (i.e. it was persisted and survived the retention/cap limits),
and the second call's blend is non-empty (no random fallback), then the
second call emits no id the first call emitted. -/
theorem c3_amended (catalog : List Img) (ledger1 ledger2 : List SeenRow)
    (sh1 fb1 sh2 fb2 : List Img) (now1 now2 : Int) (p : FeedParams)
    (cursor1 cursor2 : Option (List Char)) (uid : Int)
    (hen : p.seen_enabled = true) (huid : p.seen_user_id = some uid)
    (hpersist : ∀ img ∈ (build_feed_selection catalog ledger1 sh1 fb1 now1 p cursor1).images,
      img.id ∈ load_seen_ids ledger2 uid p.seen_retention_days p.seen_max_ids now2)
    (hblend : (blend_feed (feed_pools catalog ledger2 sh2 now2 p cursor2).1
        (feed_pools catalog ledger2 sh2 now2 p cursor2).2.1 p.per_page
        (prioritized_target p.per_page p.prioritized_pct) p.max_per_uploader
        p.max_consecutive).output ≠ []) :
    ∀ img2 ∈ (build_feed_selection catalog ledger2 sh2 fb2 now2 p cursor2).images,
      ∀ img1 ∈ (build_feed_selection catalog ledger1 sh1 fb1 now1 p cursor1).images,
        img2.id ≠ img1.id := by
  intro img2 h2 img1 h1 heq
  have himg : (build_feed_selection catalog ledger2 sh2 fb2 now2 p cursor2).images =
      (blend_feed (feed_pools catalog ledger2 sh2 now2 p cursor2).1
        (feed_pools catalog ledger2 sh2 now2 p cursor2).2.1 p.per_page
        (prioritized_target p.per_page p.prioritized_pct) p.max_per_uploader
        p.max_consecutive).output := by
    simp only [build_feed_selection]
    split
    · next hempty => exact absurd hempty hblend
    · rfl
  rw [himg] at h2
  unfold blend_feed at h2
  have hmem := blend_loop_mem p.per_page _ _ _ _ _ _ _ _ _ _ _ img2 h2
  have hseen : img2.id ∉ (feed_pools catalog ledger2 sh2 now2 p cursor2).2.2 := by
    rcases hmem with hmp | hmr
    · rw [feed_pools_fst] at hmp
      exact (mem_prioritized_candidates hmp).2
    · rw [feed_pools_snd] at hmr
      exact (mem_random_candidates hmr).2.1
  rw [feed_pools_seen hen huid] at hseen
  exact hseen (heq ▸ hpersist img1 h1)

/-- C3, witness for the amended theorem: a two-image catalog where the
first page served image 1, the ledger records it, and the second page
serves image 2. -/
theorem c3_amended_witness : (⟨2, 20, 4⟩ : Img).id ≠ (⟨1, 10, 5⟩ : Img).id :=
  c3_amended [⟨1, 10, 5⟩, ⟨2, 20, 4⟩] [] [⟨1, 1, 0⟩]
    [⟨1, 10, 5⟩, ⟨2, 20, 4⟩] [⟨1, 10, 5⟩, ⟨2, 20, 4⟩]
    [⟨1, 10, 5⟩, ⟨2, 20, 4⟩] [⟨1, 10, 5⟩, ⟨2, 20, 4⟩] 100 100
    ⟨[], [], 1, 0, 0, 1, 0, 0, true, some 1, 0, 10⟩ none none 1
    rfl rfl (by decide) (by decide) ⟨2, 20, 4⟩ (by decide) ⟨1, 10, 5⟩ (by decide)

/-! ## Claims C8 and C10: fallback behavior and the seen-mode cursor -/

theorem blend_loop_nil_nil (fuel : Nat) (counts : Int → Nat) (lastUp : Option Int)
    (consec taken target k m : Nat) (lastP lastG : Option Img) :
    (blend_loop fuel [] [] counts lastUp consec taken target k m lastP lastG).output = [] := by
  cases fuel <;> simp [blend_loop]

/-- C8: if the blended page is empty, the returned page is the plain
prefix of the unconstrained random draw over the whole catalog (no
seen/freshness/cursor filtering); hence a non-empty catalog with a
positive page size never yields an empty page; and an empty catalog
yields an empty page with an empty cursor. -/
theorem c8_feed_fallback (catalog : List Img) (ledger : List SeenRow)
    (sh fb : List Img) (now : Int) (p : FeedParams) (cursor : Option (List Char)) :
    let sel := build_feed_selection catalog ledger sh fb now p cursor
    let b := blend_feed (feed_pools catalog ledger sh now p cursor).1
      (feed_pools catalog ledger sh now p cursor).2.1 p.per_page
      (prioritized_target p.per_page p.prioritized_pct) p.max_per_uploader p.max_consecutive
    (b.output = [] → sel.images = fb.take p.per_page) ∧
      (fb.Perm catalog → catalog ≠ [] → 0 < p.per_page → sel.images ≠ []) ∧
      (sh.Perm catalog → fb.Perm catalog → catalog = [] →
        sel.images = [] ∧ sel.next_cursor = []) := by
  intro sel b
  have hfall : b.output = [] → sel.images = fb.take p.per_page := by
    intro h
    show (build_feed_selection catalog ledger sh fb now p cursor).images = _
    simp only [build_feed_selection]
    split
    · rfl
    · next hne => exact absurd h hne
  have hkeep : b.output ≠ [] → sel.images = b.output := by
    intro h
    show (build_feed_selection catalog ledger sh fb now p cursor).images = _
    simp only [build_feed_selection]
    split
    · next hempty => exact absurd hempty h
    · rfl
  refine ⟨hfall, ?_, ?_⟩
  · intro hperm hcat hpp
    by_cases hb : b.output = []
    · rw [hfall hb]
      have hfb : fb ≠ [] := by
        intro hnil
        exact hcat (hnil ▸ hperm).symm.eq_nil
      intro htake
      rcases List.take_eq_nil_iff.mp htake with h | h
      · omega
      · exact hfb h
    · rw [hkeep hb]; exact hb
  · intro hsh hfb hcat
    subst hcat
    have hsh' : sh = [] := hsh.eq_nil
    have hfb' : fb = [] := hfb.eq_nil
    have hb : b.output = [] := by
      have hpc : (feed_pools [] ledger sh now p cursor).1 = [] := by
        rw [List.eq_nil_iff_forall_not_mem]
        intro x hx
        rw [feed_pools_fst] at hx
        exact absurd (mem_prioritized_candidates hx).1 (List.not_mem_nil x)
      have hrc : (feed_pools [] ledger sh now p cursor).2.1 = [] := by
        rw [List.eq_nil_iff_forall_not_mem]
        intro x hx
        rw [feed_pools_snd] at hx
        have := (mem_random_candidates hx).1
        rw [hsh'] at this
        exact absurd this (List.not_mem_nil x)
      show (blend_feed _ _ _ _ _ _).output = []
      rw [hpc, hrc]
      unfold blend_feed
      exact blend_loop_nil_nil _ _ _ _ _ _ _ _ _ _
    refine ⟨by rw [hfall hb, hfb']; simp, ?_⟩
    show (build_feed_selection [] ledger sh fb now p cursor).next_cursor = []
    simp only [build_feed_selection]
    split
    · next hempty =>
      rw [hfb']
      simp
    · next hne => exact absurd hb hne

/-- C8, witness: a one-image catalog yields a non-empty page, and an
empty catalog yields an empty page and cursor. -/
theorem c8_feed_fallback_witness :
    (build_feed_selection [⟨1, 10, 5⟩] [] [⟨1, 10, 5⟩] [⟨1, 10, 5⟩] 0
        ⟨[], [], 1, 0, 0, 1, 0, 0, false, none, 0, 10⟩ none).images ≠ [] ∧
      (build_feed_selection [] [] [] [] 0
          ⟨[], [], 1, 0, 0, 1, 0, 0, false, none, 0, 10⟩ none).images = [] ∧
        (build_feed_selection [] [] [] [] 0
            ⟨[], [], 1, 0, 0, 1, 0, 0, false, none, 0, 10⟩ none).next_cursor = [] :=
  ⟨(c8_feed_fallback [⟨1, 10, 5⟩] [] [⟨1, 10, 5⟩] [⟨1, 10, 5⟩] 0
      ⟨[], [], 1, 0, 0, 1, 0, 0, false, none, 0, 10⟩ none).2.1
      (List.Perm.refl _) (by decide) (by decide),
    (c8_feed_fallback [] [] [] [] 0
      ⟨[], [], 1, 0, 0, 1, 0, 0, false, none, 0, 10⟩ none).2.2
      (List.Perm.refl _) (List.Perm.refl _) rfl⟩

/-- C10, counterexample: seen mode with the whole catalog already seen
makes the blend empty; the fallback then sets the next cursor to
"random", which is neither "seen" nor the empty string the claim
allows. -/
theorem c10_counterexample :
    let p : FeedParams := ⟨[], [], 1, 0, 0, 1, 0, 0, true, some 1, 0, 10⟩
    let catalog : List Img := [⟨1, 10, 5⟩]
    let sel := build_feed_selection catalog [⟨1, 1, 0⟩] catalog catalog 1000 p none
    sel.next_cursor = chars ("random") ∧
      sel.next_cursor ≠ chars ("seen") ∧ sel.next_cursor ≠ [] := by
  decide

theorem prioritized_candidates_useSeen (catalog : List Img) (liked following : List Int)
    (cutoff : Option Int) (seenIds : List Int) (c1 c2 : Option (List Char)) (limit : Nat) :
    prioritized_candidates catalog liked following cutoff seenIds true c1 limit =
      prioritized_candidates catalog liked following cutoff seenIds true c2 limit := by
  unfold prioritized_candidates
  cases prioritized_filter liked following with
  | none => rfl
  | some pred => simp [cursorStage]

theorem feed_pools_cursor_indep {catalog : List Img} {ledger : List SeenRow}
    {sh : List Img} {now : Int} {p : FeedParams}
    (h : (p.seen_enabled && p.seen_user_id.isSome) = true) (c1 c2 : Option (List Char)) :
    feed_pools catalog ledger sh now p c1 = feed_pools catalog ledger sh now p c2 := by
  simp only [feed_pools, h, if_true]
  rw [prioritized_candidates_useSeen catalog p.liked_ids p.following_ids
    (fresh_cutoff now p.fresh_days) _ (parse_feed_cursor c1).prioritized
    (parse_feed_cursor c2).prioritized]

/-- C10, amended: with seen-tracking enabled and a known viewer, the
incoming cursor is ignored entirely (the whole selection is the same
function of the catalog for any two cursors), and on a non-empty blend
the next cursor is "seen" exactly when candidates are left over after
blending — the pools are consumed in place, so the comparison of
line 291 is leftover candidates versus emitted images; on an empty
blend the fallback cursor "random" (or "") is returned instead. -/
theorem c10_amended (catalog : List Img) (ledger : List SeenRow)
    (sh fb : List Img) (now : Int) (p : FeedParams) (uid : Int)
    (hen : p.seen_enabled = true) (huid : p.seen_user_id = some uid) :
    (∀ c1 c2 : Option (List Char),
      build_feed_selection catalog ledger sh fb now p c1 =
        build_feed_selection catalog ledger sh fb now p c2) ∧
      (∀ cursor : Option (List Char),
        let b := blend_feed (feed_pools catalog ledger sh now p cursor).1
          (feed_pools catalog ledger sh now p cursor).2.1 p.per_page
          (prioritized_target p.per_page p.prioritized_pct) p.max_per_uploader
          p.max_consecutive
        b.output ≠ [] →
          (build_feed_selection catalog ledger sh fb now p cursor).next_cursor =
            (if b.output.length < b.priLeft.length + b.globLeft.length
              then chars ("seen") else [])) := by
  have huse : (p.seen_enabled && p.seen_user_id.isSome) = true := by
    rw [hen, huid]; rfl
  constructor
  · intro c1 c2
    simp only [build_feed_selection, huse, if_true]
    rw [feed_pools_cursor_indep huse c1 c2]
  · intro cursor b hb
    show (build_feed_selection catalog ledger sh fb now p cursor).next_cursor = _
    simp only [build_feed_selection, huse, if_true]
    split
    · next hempty => exact absurd hempty hb
    · simp only [decide_eq_true_eq]

/-- C10, witness for the amended theorem: with seen-tracking on, the
selection is identical for the empty cursor and an arbitrary junk
cursor. -/
theorem c10_amended_witness :
    build_feed_selection [⟨1, 10, 5⟩] [] [⟨1, 10, 5⟩] [⟨1, 10, 5⟩] 0
        ⟨[], [], 1, 0, 0, 1, 0, 0, true, some 1, 0, 10⟩ none =
      build_feed_selection [⟨1, 10, 5⟩] [] [⟨1, 10, 5⟩] [⟨1, 10, 5⟩] 0
        ⟨[], [], 1, 0, 0, 1, 0, 0, true, some 1, 0, 10⟩ (some (chars ("x"))) :=
  (c10_amended [⟨1, 10, 5⟩] [] [⟨1, 10, 5⟩] [⟨1, 10, 5⟩] 0
    ⟨[], [], 1, 0, 0, 1, 0, 0, true, some 1, 0, 10⟩ 1 rfl rfl).1 none (some (chars ("x")))

/-! ## Claim C4: page-size bound -/

theorem exclFilter_eq_filter (ids : List Int) (q : List Img) :
    exclFilter ids q = q.filter fun img => ! ids.contains img.id := by
  unfold exclFilter
  split
  · rename_i h; subst h; simp
  · rfl

theorem blend_pick_zero (pri glob : List Img) (counts : Int → Nat) (lastUp : Option Int)
    (consec : Nat) (tp : Bool) (h : ¬(pri = [] ∧ glob = [])) :
    ∃ img pri' glob' fromPri,
      blend_pick pri glob counts lastUp consec 0 0 tp = some (img, pri', glob', fromPri) ∧
        pri'.length + glob'.length + 1 = pri.length + glob.length := by
  cases tp with
  | true =>
    cases pri with
    | nil =>
      cases glob with
      | nil => exact absurd ⟨rfl, rfl⟩ h
      | cons b bs =>
        exact ⟨b, [], bs, false, by simp [blend_pick, pop_next_valid],
          by simp only [List.length_cons, List.length_nil]; omega⟩
    | cons a as =>
      exact ⟨a, as, glob, true, by simp [blend_pick, pop_next_valid],
        by simp only [List.length_cons]; omega⟩
  | false =>
    cases glob with
    | nil =>
      cases pri with
      | nil => exact absurd ⟨rfl, rfl⟩ h
      | cons a as =>
        exact ⟨a, as, [], true, by simp [blend_pick, pop_next_valid],
          by simp only [List.length_cons, List.length_nil]⟩
    | cons b bs =>
      exact ⟨b, pri, bs, false, by simp [blend_pick, pop_next_valid],
        by simp only [List.length_cons]; omega⟩

theorem blend_loop_length_nocaps :
    ∀ (fuel : Nat) (pri glob : List Img) (counts : Int → Nat) (lastUp : Option Int)
      (consec taken target : Nat) (lastP lastG : Option Img),
      (blend_loop fuel pri glob counts lastUp consec taken target 0 0 lastP lastG).output.length
        = min fuel (pri.length + glob.length) := by
  intro fuel
  induction fuel with
  | zero => intros; simp [blend_loop]
  | succ n ih =>
    intro pri glob counts lastUp consec taken target lastP lastG
    rw [blend_loop]
    by_cases hpg : pri = [] ∧ glob = []
    · rw [if_pos hpg]
      obtain ⟨h1, h2⟩ := hpg
      subst h1; subst h2
      simp
    · rw [if_neg hpg]
      obtain ⟨img, pri', glob', fromPri, hpick, hlen⟩ :=
        blend_pick_zero pri glob counts lastUp consec (decide (taken < target)) hpg
      rw [hpick]
      simp only [List.length_cons]
      rw [ih]
      omega

theorem filter_mem_le_length :
    ∀ (l : List Img) (S : List Int), (l.map (·.id)).Nodup →
      (l.filter fun img => S.contains img.id).length ≤ S.length := by
  intro l
  induction l with
  | nil => intro S _; simp
  | cons a as ih =>
    intro S hnd
    simp only [List.map_cons, List.nodup_cons] at hnd
    obtain ⟨hna, hnd'⟩ := hnd
    by_cases hmem : a.id ∈ S
    · rw [List.filter_cons_of_pos (by simpa using hmem)]
      have heq : (as.filter fun img => S.contains img.id)
          = as.filter fun img => (S.erase a.id).contains img.id := by
        apply List.filter_congr
        intro x hx
        have hne : x.id ≠ a.id := fun hcontra =>
          hna (hcontra ▸ List.mem_map_of_mem (·.id) hx)
        rw [Bool.eq_iff_iff]
        simp [List.mem_erase_of_ne hne]
      rw [List.length_cons, heq]
      have hle := ih (S.erase a.id) hnd'
      rw [List.length_erase_of_mem hmem] at hle
      have hpos : 0 < S.length := List.length_pos_of_mem hmem
      omega
    · rw [List.filter_cons_of_neg (by simpa using hmem)]
      exact ih S hnd'

theorem feed_pools_enough (catalog : List Img) (ledger : List SeenRow) (sh : List Img)
    (now : Int) (p : FeedParams) (cursor : Option (List Char))
    (hperm : sh.Perm catalog) (hnd : (catalog.map (·.id)).Nodup)
    (hU : p.per_page ≤ (catalog.filter fun img =>
      ! ((feed_pools catalog ledger sh now p cursor).2.2).contains img.id).length) :
    p.per_page ≤ (feed_pools catalog ledger sh now p cursor).1.length +
      (feed_pools catalog ledger sh now p cursor).2.1.length := by
  by_cases hcase : p.per_page ≤ (feed_pools catalog ledger sh now p cursor).1.length
  · omega
  · push_neg at hcase
    rw [feed_pools_snd, random_candidates, exclFilter_eq_filter, exclFilter_eq_filter,
      List.filter_filter, List.length_take]
    have hperm2 := (hperm.filter fun a =>
      (!((feed_pools catalog ledger sh now p cursor).1.map (·.id)).contains a.id) &&
        (!((feed_pools catalog ledger sh now p cursor).2.2).contains a.id))
    rw [hperm2.length_eq]
    have hsplit := List.length_eq_countP_add_countP
      (fun a => !((feed_pools catalog ledger sh now p cursor).1.map (·.id)).contains a.id)
      (catalog.filter fun img =>
        ! ((feed_pools catalog ledger sh now p cursor).2.2).contains img.id)
    rw [List.countP_eq_length_filter, List.countP_eq_length_filter, List.filter_filter,
      List.filter_filter] at hsplit
    have hB : (catalog.filter fun a =>
        (decide (¬(!((feed_pools catalog ledger sh now p cursor).1.map (·.id)).contains a.id)
          = true)) &&
          (!((feed_pools catalog ledger sh now p cursor).2.2).contains a.id)).length ≤
        ((feed_pools catalog ledger sh now p cursor).1.map (·.id)).length := by
      calc (catalog.filter fun a =>
            (decide (¬(!((feed_pools catalog ledger sh now p cursor).1.map (·.id)).contains a.id)
              = true)) &&
              (!((feed_pools catalog ledger sh now p cursor).2.2).contains a.id)).length
          ≤ (catalog.filter fun a =>
              ((feed_pools catalog ledger sh now p cursor).1.map (·.id)).contains a.id).length := by
            apply List.Sublist.length_le
            apply List.monotone_filter_right
            intro a ha
            simp only [Bool.and_eq_true, decide_eq_true_eq, Bool.not_eq_true'] at ha
            simpa using ha.1
        _ ≤ ((feed_pools catalog ledger sh now p cursor).1.map (·.id)).length :=
            filter_mem_le_length catalog _ hnd
    rw [List.length_map] at hB
    have hlim : p.per_page ≤ max (p.per_page * p.candidate_multiplier) p.per_page :=
      le_max_right _ _
    omega

/-- C4, counterexample: two unseen images by the same uploader and
`max_per_uploader = 1` with `page_size = 2`: both images are eligible
(the catalog holds at least `page_size` unseen candidates) yet the page
contains only one image, so "exactly `page_size`" fails under caps. -/
theorem c4_counterexample :
    let p : FeedParams := ⟨[], [], 2, 0, 0, 1, 1, 0, false, none, 0, 10⟩
    let catalog : List Img := [⟨1, 10, 5⟩, ⟨2, 10, 4⟩]
    let sel := build_feed_selection catalog [] catalog catalog 1000 p none
    (catalog.filter fun img => ! (List.contains ([] : List Int) img.id)).length = 2 ∧
      sel.images.length = 1 ∧ sel.images.length ≠ p.per_page := by
  decide

/-- C4, amended: the page never exceeds `page_size`; and it reaches
exactly `page_size` whenever the uploader caps are unconstrained
(`max_per_uploader = 0` and `max_consecutive = 0`), the catalog ids are
distinct, the discovery draw is a permutation of the catalog, and at
least `page_size` catalog images survive the seen-exclusion.  With a
positive cap the page can fall short, as the counterexample shows. -/
theorem c4_amended (catalog : List Img) (ledger : List SeenRow)
    (sh fb : List Img) (now : Int) (p : FeedParams) (cursor : Option (List Char)) :
    let sel := build_feed_selection catalog ledger sh fb now p cursor
    sel.images.length ≤ p.per_page ∧
      (p.max_per_uploader = 0 → p.max_consecutive = 0 → sh.Perm catalog →
        (catalog.map (·.id)).Nodup →
        p.per_page ≤ (catalog.filter fun img =>
          ! ((feed_pools catalog ledger sh now p cursor).2.2).contains img.id).length →
        sel.images.length = p.per_page) := by
  intro sel
  have hle : sel.images.length ≤ p.per_page := by
    show (build_feed_selection catalog ledger sh fb now p cursor).images.length ≤ _
    simp only [build_feed_selection]
    split
    · exact List.length_take_le _ _
    · exact le_trans (le_of_eq rfl) (blend_loop_length_le _ _ _ _ _ _ _ _ _ _ _ _)
  refine ⟨hle, ?_⟩
  intro hk hm hperm hnd hU
  have hpools := feed_pools_enough catalog ledger sh now p cursor hperm hnd hU
  have hblen : (blend_feed (feed_pools catalog ledger sh now p cursor).1
      (feed_pools catalog ledger sh now p cursor).2.1 p.per_page
      (prioritized_target p.per_page p.prioritized_pct) p.max_per_uploader
      p.max_consecutive).output.length = p.per_page := by
    rw [hk, hm]
    unfold blend_feed
    rw [blend_loop_length_nocaps]
    omega
  rcases Nat.eq_zero_or_pos p.per_page with hpp | hpp
  · omega
  · have hne : (blend_feed (feed_pools catalog ledger sh now p cursor).1
        (feed_pools catalog ledger sh now p cursor).2.1 p.per_page
        (prioritized_target p.per_page p.prioritized_pct) p.max_per_uploader
        p.max_consecutive).output ≠ [] := by
      intro hnil
      rw [hnil] at hblen
      simp at hblen
      omega
    have himg : sel.images = (blend_feed (feed_pools catalog ledger sh now p cursor).1
        (feed_pools catalog ledger sh now p cursor).2.1 p.per_page
        (prioritized_target p.per_page p.prioritized_pct) p.max_per_uploader
        p.max_consecutive).output := by
      show (build_feed_selection catalog ledger sh fb now p cursor).images = _
      simp only [build_feed_selection]
      split
      · next hempty => exact absurd hempty hne
      · rfl
    rw [himg, hblen]

/-- C4, witness for the amended theorem: one unseen image, page size 1,
caps off — the page has exactly one image. -/
theorem c4_amended_witness :
    (build_feed_selection [⟨1, 10, 5⟩] [] [⟨1, 10, 5⟩] [⟨1, 10, 5⟩] 0
      ⟨[], [], 1, 0, 0, 1, 0, 0, false, none, 0, 10⟩ none).images.length = 1 :=
  (c4_amended [⟨1, 10, 5⟩] [] [⟨1, 10, 5⟩] [⟨1, 10, 5⟩] 0
    ⟨[], [], 1, 0, 0, 1, 0, 0, false, none, 0, 10⟩ none).2
    rfl rfl (List.Perm.refl _) (by decide) (by decide)

/-! ## Claim C7: seen idempotence -/

theorem seenCount_append (u i : Int) (l1 l2 : List SeenRow) :
    seenCount u i (l1 ++ l2) = seenCount u i l1 + seenCount u i l2 :=
  List.countP_append _ _ _

theorem seenCount_filter_le (u i : Int) (q : SeenRow → Bool) (l : List SeenRow) :
    seenCount u i (l.filter q) ≤ seenCount u i l :=
  (List.filter_sublist l).countP_le _

/-- A single-id persist call when the pair is absent: the row is
appended and the retention prune (if any) runs over the result. -/
theorem persist_fresh (ledger : List SeenRow) (uid i retention now : Int)
    (h0 : seenCount uid i ledger = 0) :
    persist_seen_ids ledger uid [i] retention now =
      if 0 < retention then
        (ledger ++ [SeenRow.mk uid i now]).filter fun r =>
          ! (decide (r.userId = uid) && decide (r.seenAt < now - retention))
      else ledger ++ [SeenRow.mk uid i now] := by
  have hall := List.countP_eq_zero.mp h0
  have hfe : (ledger.filter fun r =>
      decide (r.userId = uid) && List.contains [i] r.imageId) = [] := by
    rw [List.filter_eq_nil_iff]
    intro r hr
    have hnot := hall r hr
    simp only [decide_eq_true_eq, not_and] at hnot
    simp only [Bool.and_eq_true, decide_eq_true_eq, List.contains_cons, List.contains_nil,
      Bool.or_false, beq_iff_eq, not_and]
    intro hu hi
    exact hnot hu hi
  simp only [persist_seen_ids, hfe]
  rw [if_neg (by simp)]
  simp

/-- A single-id persist call when the pair is present: nothing is
inserted and only the retention prune (if any) runs. -/
theorem persist_already (ledger : List SeenRow) (uid i retention now : Int)
    (h : 0 < seenCount uid i ledger) :
    persist_seen_ids ledger uid [i] retention now =
      if 0 < retention then
        ledger.filter fun r =>
          ! (decide (r.userId = uid) && decide (r.seenAt < now - retention))
      else ledger := by
  obtain ⟨r, hrmem, hrp⟩ := List.countP_pos_iff.mp h
  simp only [decide_eq_true_eq] at hrp
  have himem : i ∈ (ledger.filter fun r =>
      decide (r.userId = uid) && List.contains [i] r.imageId).map (·.imageId) := by
    refine List.mem_map.mpr ⟨r, List.mem_filter.mpr ⟨hrmem, ?_⟩, hrp.2⟩
    simp [hrp.1, hrp.2]
  have hfil : ([i].filter fun x =>
      ! ((ledger.filter fun r =>
        decide (r.userId = uid) && List.contains [i] r.imageId).map (·.imageId)).contains x)
      = [] := by
    simp only [List.filter_cons, List.filter_nil]
    rw [if_neg (by simp; exact ⟨r, hrmem, hrp⟩)]
  simp only [persist_seen_ids, hfil]
  rw [if_neg (by simp)]
  simp

/-- C7, counterexample: recording (viewer 1, image 1) at time 0 and
again at time 5 with a 1-day retention window leaves zero ledger
entries for the pair, not one: the second call's retention prune
deletes the original row. -/
theorem c7_counterexample :
    seenCount 1 1 (persist_seen_ids (persist_seen_ids [] 1 [1] 1 0) 1 [1] 1 5) = 0 ∧
      seenCount 1 1 (persist_seen_ids (persist_seen_ids [] 1 [1] 1 0) 1 [1] 1 5) ≠ 1 := by
  decide

/-- C7, amended: recording (v, i) twice leaves exactly one ledger entry
for the pair provided the second call happens within the retention
window of the first (or retention is disabled); outside the window the
entry is pruned, leaving zero.  And every seen-persist operation on a
page of distinct ids preserves the at-most-one-entry-per-pair
invariant. -/
theorem c7_amended :
    (∀ (ledger : List SeenRow) (uid i retention now1 now2 : Int),
        seenCount uid i ledger = 0 →
        (retention ≤ 0 ∨ now2 - retention ≤ now1) →
        seenCount uid i
          (persist_seen_ids (persist_seen_ids ledger uid [i] retention now1)
            uid [i] retention now2) = 1) ∧
      (∀ (ledger : List SeenRow) (uid : Int) (ids : List Int) (retention now : Int),
        ids.Nodup → atMostOnePerPair ledger →
        atMostOnePerPair (persist_seen_ids ledger uid ids retention now)) := by
  constructor
  · intro ledger uid i retention now1 now2 h0 hwin
    have hcount1 : ∀ q : SeenRow → Bool, q (SeenRow.mk uid i now1) = true →
        seenCount uid i ((ledger ++ [SeenRow.mk uid i now1]).filter q) = 1 := by
      intro q hq
      rw [List.filter_append, seenCount_append]
      have hz : seenCount uid i (ledger.filter q) = 0 :=
        Nat.le_zero.mp (h0 ▸ seenCount_filter_le uid i q ledger)
      rw [hz]
      simp [List.filter_cons, hq, seenCount, List.countP_cons]
    rw [persist_fresh ledger uid i retention now1 h0]
    by_cases hret : 0 < retention
    · rw [if_pos hret]
      have hc1 := hcount1
        (fun r : SeenRow =>
          ! (decide (r.userId = uid) && decide (r.seenAt < now1 - retention)))
        (by simp; omega)
      rw [persist_already _ uid i retention now2 (by omega), if_pos hret,
        List.filter_filter]
      apply hcount1
      simp
      omega
    · rw [if_neg hret]
      have hc1 : seenCount uid i (ledger ++ [SeenRow.mk uid i now1]) = 1 := by
        have := hcount1 (fun _ => true) rfl
        rwa [List.filter_true] at this
      rw [persist_already _ uid i retention now2 (by omega), if_neg hret]
      exact hc1
  · intro ledger uid ids retention now hnd hinv
    by_cases hids : ids = []
    · simp only [persist_seen_ids, if_pos hids]
      exact hinv
    · have hbase : atMostOnePerPair (ledger ++
          ((ids.filter fun x =>
            ! ((ledger.filter fun r =>
              decide (r.userId = uid) && ids.contains r.imageId).map (·.imageId)).contains x).map
            fun x => SeenRow.mk uid x now)) := by
        intro u i
        rw [seenCount_append]
        have hmapcount : seenCount u i
            ((ids.filter fun x =>
              ! ((ledger.filter fun r =>
                decide (r.userId = uid) && ids.contains r.imageId).map (·.imageId)).contains x).map
              fun x => SeenRow.mk uid x now) =
            List.countP (fun x => decide (uid = u ∧ x = i))
              (ids.filter fun x =>
                ! ((ledger.filter fun r =>
                  decide (r.userId = uid) && ids.contains r.imageId).map (·.imageId)).contains x) := by
          rw [seenCount, List.countP_map]
          rfl
        rw [hmapcount]
        by_cases hz : List.countP (fun x => decide (uid = u ∧ x = i))
            (ids.filter fun x =>
              ! ((ledger.filter fun r =>
                decide (r.userId = uid) && ids.contains r.imageId).map (·.imageId)).contains x) = 0
        · rw [hz]
          have := hinv u i
          omega
        · obtain ⟨x, hxmem, hxp⟩ := List.countP_pos_iff.mp (Nat.pos_of_ne_zero hz)
          simp only [decide_eq_true_eq] at hxp
          obtain ⟨hu, hx⟩ := hxp
          subst hu
          subst hx
          obtain ⟨hxids, hxnot⟩ := List.mem_filter.mp hxmem
          have hledger0 : seenCount uid x ledger = 0 := by
            by_contra hpos
            obtain ⟨r, hrmem, hrp⟩ :=
              List.countP_pos_iff.mp (Nat.pos_of_ne_zero hpos)
            simp only [decide_eq_true_eq] at hrp
            have hrmem2 : r.imageId ∈ (ledger.filter fun r =>
                decide (r.userId = uid) && ids.contains r.imageId).map (·.imageId) := by
              refine List.mem_map.mpr ⟨r, List.mem_filter.mpr ⟨hrmem, ?_⟩, rfl⟩
              simp only [Bool.and_eq_true, decide_eq_true_eq]
              exact ⟨hrp.1, by rw [hrp.2]; simpa using hxids⟩
            rw [hrp.2] at hrmem2
            simp only [Bool.not_eq_true'] at hxnot
            rw [← Bool.not_eq_true] at hxnot
            exact hxnot (by simpa using hrmem2)
          rw [hledger0]
          have hcle : List.countP (fun y => decide (uid = uid ∧ y = x))
              (ids.filter fun y =>
                ! ((ledger.filter fun r =>
                  decide (r.userId = uid) && ids.contains r.imageId).map (·.imageId)).contains y)
              ≤ List.countP (· == x)
                (ids.filter fun y =>
                  ! ((ledger.filter fun r =>
                    decide (r.userId = uid) && ids.contains r.imageId).map (·.imageId)).contains y) := by
            apply List.countP_mono_left
            intro a _ ha
            simp only [decide_eq_true_eq] at ha
            simpa using ha.2
          have hnodup1 : (ids.filter fun y =>
              ! ((ledger.filter fun r =>
                decide (r.userId = uid) && ids.contains r.imageId).map (·.imageId)).contains y).Nodup :=
            hnd.filter _
          have hcnt := List.nodup_iff_count_le_one.mp hnodup1 x
          rw [List.count] at hcnt
          omega
      simp only [persist_seen_ids, if_neg hids]
      split
      · intro u i
        exact le_trans (seenCount_filter_le u i _ _) (hbase u i)
      · exact hbase



/-- C7, witness for the amended theorem: two recordings one time unit
apart inside a 1-day window leave one entry; persisting a two-id page
into an empty ledger preserves the invariant. -/
theorem c7_amended_witness :
    seenCount 1 1 (persist_seen_ids (persist_seen_ids [] 1 [1] 1 0) 1 [1] 1 1) = 1 ∧
      atMostOnePerPair (persist_seen_ids [] 1 [1, 2] 0 0) :=
  ⟨c7_amended.1 [] 1 1 1 0 1 rfl (Or.inr (by decide)),
    c7_amended.2 [] 1 [1, 2] 0 0 (by decide) (fun _ _ => Nat.zero_le 1)⟩

/-! ## Claims C1 and C9: watermark extraction -/

theorem dropLit_mem : ∀ {p s r : List Char}, dropLit p s = some r → ∀ c ∈ p, c ∈ s := by
  intro p
  induction p with
  | nil => intro s r _ c hc; simp at hc
  | cons a as ih =>
    intro s r h c hc
    cases s with
    | nil => simp [dropLit] at h
    | cons b bs =>
      rw [dropLit] at h
      split at h
      · rename_i heq
        rcases List.mem_cons.mp hc with h1 | h1
        · subst h1
          exact heq ▸ List.mem_cons_self _ _
        · exact List.mem_cons_of_mem _ (ih h c h1)
      · simp at h

theorem matchBrokenAt_backslash {s h : List Char} (hm : matchBrokenAt s = some h) :
    '\\' ∈ s := by
  unfold matchBrokenAt at hm
  cases hd : dropLit (chars ("SkyFrame\\")) s with
  | none => rw [hd] at hm; simp at hm
  | some r1 => exact dropLit_mem hd '\\' (by decide)

theorem searchBroken_backslash : ∀ {s h : List Char}, searchBroken s = some h → '\\' ∈ s := by
  intro s
  induction s with
  | nil => intro h hs; simp [searchBroken] at hs
  | cons c rest ih =>
    intro h hs
    rw [searchBroken] at hs
    cases hm : matchBrokenAt (c :: rest) with
    | some g => exact matchBrokenAt_backslash hm
    | none =>
      rw [hm] at hs
      exact List.mem_cons_of_mem _ (ih hs)

theorem charOfNat_toNat {n : Nat} (h : n < 128) : (Char.ofNat n).toNat = n := by
  have hv : n.isValidChar := Or.inl (by omega)
  simp [Char.ofNat, Char.toNat, Char.ofNatAux, hv]
  rfl

theorem asciiDecode_backslash {l : List Nat} (h : '\\' ∈ asciiDecode l) : 92 ∈ l := by
  unfold asciiDecode at h
  obtain ⟨b, hb, hofNat⟩ := List.mem_map.mp h
  obtain ⟨hbl, hblt⟩ := List.mem_filter.mp hb
  have hlt : b < 128 := by simpa using hblt
  have hn : (Char.ofNat b).toNat = b := charOfNat_toNat hlt
  rw [hofNat] at hn
  have h92 : ('\\').toNat = 92 := by decide
  have hb92 : b = 92 := by omega
  exact hb92 ▸ hbl

theorem findMarkerSuffix_sub {m : List Nat} :
    ∀ {l suf : List Nat}, findMarkerSuffix m l = some suf → ∀ x ∈ suf, x ∈ l := by
  intro l
  induction l with
  | nil =>
    intro suf h x hx
    unfold findMarkerSuffix at h
    split at h
    · simp only [Option.some.injEq] at h
      rw [← h] at hx
      simp at hx
    · simp at h
  | cons a as ih =>
    intro suf h x hx
    rw [findMarkerSuffix] at h
    split at h
    · simp only [Option.some.injEq] at h
      exact h ▸ hx
    · exact List.mem_cons_of_mem _ (ih h x hx)

theorem scanLoop_backslash :
    ∀ (fuel : Nat) (data : List Nat) (idx : Nat) (h : List Char),
      scanLoop fuel data idx = some h → 92 ∈ data := by
  intro fuel
  induction fuel with
  | zero => intro data idx h hs; simp [scanLoop] at hs
  | succ n ih =>
    intro data idx h hs
    rw [scanLoop] at hs
    split at hs
    · split at hs
      · exact ih data (idx + 1) h hs
      · split at hs
        · simp at hs
        · split at hs
          · simp at hs
          · split at hs
            · split at hs
              · rename_i hfind
                split at hs
                · rename_i hsearch
                  have hbs := searchBroken_backslash hsearch
                  have h92seg := asciiDecode_backslash hbs
                  have hsub := findMarkerSuffix_sub hfind 92 h92seg
                  have h1 := List.mem_of_mem_take hsub
                  exact List.mem_of_mem_drop h1
                · exact ih data _ h hs
              · exact ih data _ h hs
            · exact ih data _ h hs
    · simp at hs

theorem mem_map_toNat_of_mem {c : Char} {l : List Char} (h : c ∈ l) :
    c.toNat ∈ l.map (·.toNat) :=
  List.mem_map_of_mem _ h

/-- The saved bytes and the saved comment of a well-formed watermark id
(16 hex characters) contain no backslash, so the mis-escaped regex can
never match them. -/
theorem savedJpeg_no92 (wid : List Char) (hlen : wid.length = 16)
    (hhex : ∀ c ∈ wid, isHexChar c) : ¬ 92 ∈ savedJpegBytes wid := by
  intro hmem
  have hblen : (asciiBytes (watermarkComment wid)).length = 25 := by
    simp [asciiBytes, watermarkComment, chars, hlen]
  simp only [savedJpegBytes] at hmem
  rw [hblen] at hmem
  rcases List.mem_append.mp hmem with h12 | htail
  · rcases List.mem_append.mp h12 with hlit | hbody
    · revert hlit; decide
    · unfold asciiBytes watermarkComment at hbody
      obtain ⟨c, hc, hct⟩ := List.mem_map.mp hbody
      rcases List.mem_append.mp hc with hsky | hwid
      · have h9 : (92 : Nat) ∈ (chars ("SkyFrame ")).map (·.toNat) :=
          hct ▸ mem_map_toNat_of_mem hsky
        revert h9; decide
      · have := hhex c hwid
        unfold isHexChar at this
        omega
  · revert htail; decide

/-- C1, code bug: for every well-formed watermark id, extracting from
the saved file (which carries the comment "SkyFrame " ++ id exactly as
`apply_watermark_to_file` writes it, with PIL also reporting that
comment) returns `None` instead of the id: the pattern in
storage.py line 186/198 doubles the backslash inside a raw string, so
it requires a literal backslash that the comment never contains, and
the round-trip `extract(apply(I, S).bytes) = watermark_id` fails. -/
theorem c1_watermark_roundtrip_bug (wid : List Char) (hlen : wid.length = 16)
    (hhex : ∀ c ∈ wid, isHexChar c) :
    read_watermark_comment_bytes (savedJpegBytes wid) (some (watermarkComment wid)) = none ∧
      read_watermark_comment_bytes (savedJpegBytes wid) (some (watermarkComment wid)) ≠
        some wid := by
  have hcomment : searchBroken (watermarkComment wid) = none := by
    cases hsb : searchBroken (watermarkComment wid) with
    | none => rfl
    | some g =>
      exfalso
      have hbs := searchBroken_backslash hsb
      unfold watermarkComment at hbs
      rcases List.mem_append.mp hbs with hsky | hwid
      · revert hsky; decide
      · have := hhex _ hwid
        unfold isHexChar at this
        have h92 : ('\\').toNat = 92 := by decide
        omega
  have hscan : readWatermarkScan (savedJpegBytes wid) = none := by
    cases hs : readWatermarkScan (savedJpegBytes wid) with
    | none => rfl
    | some g =>
      exact absurd (scanLoop_backslash _ _ _ _ hs) (savedJpeg_no92 wid hlen hhex)
  unfold read_watermark_comment_bytes
  rw [hscan]
  simp [hcomment]

/-- C1, witness: the concrete id "0123456789abcdef". -/
theorem c1_watermark_roundtrip_bug_witness :
    read_watermark_comment_bytes (savedJpegBytes (chars ("0123456789abcdef")))
        (some (watermarkComment (chars ("0123456789abcdef")))) = none ∧
      read_watermark_comment_bytes (savedJpegBytes (chars ("0123456789abcdef")))
          (some (watermarkComment (chars ("0123456789abcdef")))) ≠
        some (chars ("0123456789abcdef")) :=
  c1_watermark_roundtrip_bug (chars ("0123456789abcdef")) (by decide) (by decide)

/-- C9, code bug: extraction is total in this model (every branch
returns a value) and returns `None` on empty input and on a truncated
comment segment, as claimed — but on bytes carrying a perfectly
recognizable "SkyFrame deadbeefdeadbeef" comment it also returns
`None` instead of the lowercased token, because of the same doubled
backslash in the regex. -/
theorem c9_extraction_bug :
    read_watermark_comment_bytes (savedJpegBytes (chars ("deadbeefdeadbeef")))
        (some (watermarkComment (chars ("deadbeefdeadbeef")))) = none ∧
      read_watermark_comment_bytes [] none = none ∧
      read_watermark_comment_bytes [255, 216, 255, 254, 0, 50, 83] none = none := by
  decide

/-! ## Claim C6: similar-match selection -/

theorem scanBest_none (probeP probeD : List Char) (mp md : Nat) :
    ∀ (cands : List Candidate) (best : Option (Candidate × Nat × Nat)),
      scanBest probeP probeD mp md cands best = none ↔
        best = none ∧ ∀ c ∈ cands, ¬ qualifies probeP probeD mp md c := by
  intro cands
  induction cands with
  | nil => intro best; simp [scanBest]
  | cons c rest ih =>
    intro best
    rw [scanBest]
    cases hdp : hamming_distance probeP c.signature_phash with
    | none =>
      cases hdd : hamming_distance probeD c.signature_dhash with
      | none =>
        rw [ih]
        constructor
        · rintro ⟨h1, h2⟩
          refine ⟨h1, fun x hx => ?_⟩
          rcases List.mem_cons.mp hx with hxc | hxr
          · subst hxc
            rintro ⟨dp, dd, hp, _, _, _⟩
            rw [hdp] at hp
            exact Option.noConfusion hp
          · exact h2 x hxr
        · rintro ⟨h1, h2⟩
          exact ⟨h1, fun x hx => h2 x (List.mem_cons_of_mem _ hx)⟩
      | some dd =>
        rw [ih]
        constructor
        · rintro ⟨h1, h2⟩
          refine ⟨h1, fun x hx => ?_⟩
          rcases List.mem_cons.mp hx with hxc | hxr
          · subst hxc
            rintro ⟨dp, dd', hp, _, _, _⟩
            rw [hdp] at hp
            exact Option.noConfusion hp
          · exact h2 x hxr
        · rintro ⟨h1, h2⟩
          exact ⟨h1, fun x hx => h2 x (List.mem_cons_of_mem _ hx)⟩
    | some dp =>
      cases hdd : hamming_distance probeD c.signature_dhash with
      | none =>
        rw [ih]
        constructor
        · rintro ⟨h1, h2⟩
          refine ⟨h1, fun x hx => ?_⟩
          rcases List.mem_cons.mp hx with hxc | hxr
          · subst hxc
            rintro ⟨dp', dd, _, hd, _, _⟩
            rw [hdd] at hd
            exact Option.noConfusion hd
          · exact h2 x hxr
        · rintro ⟨h1, h2⟩
          exact ⟨h1, fun x hx => h2 x (List.mem_cons_of_mem _ hx)⟩
      | some dd =>
        dsimp only
        by_cases hq : dp ≤ mp ∧ dd ≤ md
        · rw [if_pos hq]
          have hqc : qualifies probeP probeD mp md c := ⟨dp, dd, hdp, hdd, hq.1, hq.2⟩
          cases best with
          | none =>
            rw [ih]
            constructor
            · rintro ⟨h1, _⟩
              exact Option.noConfusion h1
            · rintro ⟨_, h2⟩
              exact absurd hqc (h2 c (List.mem_cons_self _ _))
          | some b =>
            obtain ⟨e, ep, ed⟩ := b
            dsimp only
            constructor
            · intro h1
              exfalso
              split at h1
              · exact Option.noConfusion ((ih _).mp h1).1
              · exact Option.noConfusion ((ih _).mp h1).1
            · rintro ⟨h1, _⟩
              exact absurd h1 (Option.noConfusion)
        · rw [if_neg hq]
          rw [ih]
          constructor
          · rintro ⟨h1, h2⟩
            refine ⟨h1, fun x hx => ?_⟩
            rcases List.mem_cons.mp hx with hxc | hxr
            · subst hxc
              rintro ⟨dp', dd', hp, hd, hbp, hbd⟩
              rw [hdp] at hp
              rw [hdd] at hd
              cases hp
              cases hd
              exact hq ⟨hbp, hbd⟩
            · exact h2 x hxr
          · rintro ⟨h1, h2⟩
            exact ⟨h1, fun x hx => h2 x (List.mem_cons_of_mem _ hx)⟩

theorem scanBest_some (probeP probeD : List Char) (mp md : Nat) :
    ∀ (cands : List Candidate) (best : Option (Candidate × Nat × Nat))
      (b : Candidate) (bp bd : Nat),
      scanBest probeP probeD mp md cands best = some (b, bp, bd) →
        (best = some (b, bp, bd) ∨
          (b ∈ cands ∧ hamming_distance probeP b.signature_phash = some bp ∧
            hamming_distance probeD b.signature_dhash = some bd ∧ bp ≤ mp ∧ bd ≤ md)) ∧
        (∀ e ep ed, best = some (e, ep, ed) → bp + bd ≤ ep + ed) ∧
        (∀ c ∈ cands, ∀ dp dd, hamming_distance probeP c.signature_phash = some dp →
          hamming_distance probeD c.signature_dhash = some dd → dp ≤ mp → dd ≤ md →
          bp + bd ≤ dp + dd) := by
  intro cands
  induction cands with
  | nil =>
    intro best b bp bd h
    rw [scanBest] at h
    subst h
    refine ⟨Or.inl rfl, fun e ep ed he => ?_, fun c hc => absurd hc (List.not_mem_nil c)⟩
    injection he with he1
    obtain ⟨he2, he3⟩ := Prod.mk.injEq .. ▸ he1
    simp only [Prod.mk.injEq] at he1
    omega
  | cons c rest ih =>
    intro best b bp bd h
    rw [scanBest] at h
    cases hdp : hamming_distance probeP c.signature_phash with
    | none =>
      rw [hdp] at h
      cases hdd : hamming_distance probeD c.signature_dhash with
      | none =>
        rw [hdd] at h
        obtain ⟨h1, h2, h3⟩ := ih best b bp bd h
        refine ⟨?_, h2, fun x hx => ?_⟩
        · rcases h1 with h1 | h1
          · exact Or.inl h1
          · exact Or.inr ⟨List.mem_cons_of_mem _ h1.1, h1.2⟩
        · rcases List.mem_cons.mp hx with hxc | hxr
          · subst hxc
            intro dp dd hp
            rw [hdp] at hp
            exact absurd hp (Option.noConfusion)
          · exact h3 x hxr
      | some dd =>
        rw [hdd] at h
        obtain ⟨h1, h2, h3⟩ := ih best b bp bd h
        refine ⟨?_, h2, fun x hx => ?_⟩
        · rcases h1 with h1 | h1
          · exact Or.inl h1
          · exact Or.inr ⟨List.mem_cons_of_mem _ h1.1, h1.2⟩
        · rcases List.mem_cons.mp hx with hxc | hxr
          · subst hxc
            intro dp dd' hp
            rw [hdp] at hp
            exact absurd hp (Option.noConfusion)
          · exact h3 x hxr
    | some dp =>
      rw [hdp] at h
      cases hdd : hamming_distance probeD c.signature_dhash with
      | none =>
        rw [hdd] at h
        obtain ⟨h1, h2, h3⟩ := ih best b bp bd h
        refine ⟨?_, h2, fun x hx => ?_⟩
        · rcases h1 with h1 | h1
          · exact Or.inl h1
          · exact Or.inr ⟨List.mem_cons_of_mem _ h1.1, h1.2⟩
        · rcases List.mem_cons.mp hx with hxc | hxr
          · subst hxc
            intro dp' dd hp hd
            rw [hdd] at hd
            exact absurd hd (Option.noConfusion)
          · exact h3 x hxr
      | some dd =>
        rw [hdd] at h
        dsimp only at h
        by_cases hq : dp ≤ mp ∧ dd ≤ md
        · rw [if_pos hq] at h
          cases best with
          | none =>
            obtain ⟨h1, h2, h3⟩ := ih (some (c, dp, dd)) b bp bd h
            have hmin : bp + bd ≤ dp + dd := h2 c dp dd rfl
            refine ⟨?_, fun e ep ed he => Option.noConfusion he, fun x hx => ?_⟩
            · rcases h1 with h1 | h1
              · injection h1 with h1'
                simp only [Prod.mk.injEq] at h1'
                obtain ⟨hc1, hc2, hc3⟩ := h1'
                subst hc1; subst hc2; subst hc3
                exact Or.inr ⟨List.mem_cons_self _ _, hdp, hdd, hq.1, hq.2⟩
              · exact Or.inr ⟨List.mem_cons_of_mem _ h1.1, h1.2⟩
            · rcases List.mem_cons.mp hx with hxc | hxr
              · subst hxc
                intro dp' dd' hp hd _ _
                rw [hdp] at hp
                rw [hdd] at hd
                cases hp
                cases hd
                exact hmin
              · exact h3 x hxr
          | some eb =>
            obtain ⟨e, ep, ed⟩ := eb
            dsimp only at h
            by_cases hlt : dp + dd < ep + ed
            · rw [if_pos hlt] at h
              obtain ⟨h1, h2, h3⟩ := ih (some (c, dp, dd)) b bp bd h
              have hmin : bp + bd ≤ dp + dd := h2 c dp dd rfl
              refine ⟨?_, fun e' ep' ed' he => ?_, fun x hx => ?_⟩
              · rcases h1 with h1 | h1
                · injection h1 with h1'
                  simp only [Prod.mk.injEq] at h1'
                  obtain ⟨hc1, hc2, hc3⟩ := h1'
                  subst hc1; subst hc2; subst hc3
                  exact Or.inr ⟨List.mem_cons_self _ _, hdp, hdd, hq.1, hq.2⟩
                · exact Or.inr ⟨List.mem_cons_of_mem _ h1.1, h1.2⟩
              · injection he with he'
                simp only [Prod.mk.injEq] at he'
                obtain ⟨_, he2, he3⟩ := he'
                subst he2; subst he3
                omega
              · rcases List.mem_cons.mp hx with hxc | hxr
                · subst hxc
                  intro dp' dd' hp hd _ _
                  rw [hdp] at hp
                  rw [hdd] at hd
                  cases hp
                  cases hd
                  exact hmin
                · exact h3 x hxr
            · rw [if_neg hlt] at h
              obtain ⟨h1, h2, h3⟩ := ih (some (e, ep, ed)) b bp bd h
              have hmin : bp + bd ≤ ep + ed := h2 e ep ed rfl
              refine ⟨?_, fun e' ep' ed' he => ?_, fun x hx => ?_⟩
              · rcases h1 with h1 | h1
                · exact Or.inl h1
                · exact Or.inr ⟨List.mem_cons_of_mem _ h1.1, h1.2⟩
              · injection he with he'
                simp only [Prod.mk.injEq] at he'
                obtain ⟨_, he2, he3⟩ := he'
                subst he2; subst he3
                exact hmin
              · rcases List.mem_cons.mp hx with hxc | hxr
                · subst hxc
                  intro dp' dd' hp hd _ _
                  rw [hdp] at hp
                  rw [hdd] at hd
                  cases hp
                  cases hd
                  omega
                · exact h3 x hxr
        · rw [if_neg hq] at h
          obtain ⟨h1, h2, h3⟩ := ih best b bp bd h
          refine ⟨?_, h2, fun x hx => ?_⟩
          · rcases h1 with h1 | h1
            · exact Or.inl h1
            · exact Or.inr ⟨List.mem_cons_of_mem _ h1.1, h1.2⟩
          · rcases List.mem_cons.mp hx with hxc | hxr
            · subst hxc
              intro dp' dd' hp hd hbp hbd
              rw [hdp] at hp
              rw [hdd] at hd
              cases hp
              cases hd
              exact absurd ⟨hbp, hbd⟩ hq
            · exact h3 x hxr

/-- C6: with no exact content-hash match (and similarity enabled), the
result always has `valid = false`; if no candidate qualifies the result
is `valid = false, similar = false`; and when the scan selects a
candidate, that candidate is a stored one, qualifies with exactly the
reported phash/dhash distances, minimizes the distance sum over all
qualifying candidates, and the response carries `similar = true` with
both distances. -/
theorem c6_similar_selection (probeP probeD : List Char) (cands : List Candidate)
    (mp md : Nat) :
    ((verify_file none true probeP probeD cands mp md).valid = false) ∧
      ((∀ c ∈ cands, ¬ qualifies probeP probeD mp md c) →
        verify_file none true probeP probeD cands mp md =
          ⟨false, some false, none, none, none⟩) ∧
      (∀ b bp bd, scanBest probeP probeD mp md cands none = some (b, bp, bd) →
        b ∈ cands ∧ hamming_distance probeP b.signature_phash = some bp ∧
          hamming_distance probeD b.signature_dhash = some bd ∧ bp ≤ mp ∧ bd ≤ md ∧
          (∀ c ∈ cands, ∀ dp dd, hamming_distance probeP c.signature_phash = some dp →
            hamming_distance probeD c.signature_dhash = some dd → dp ≤ mp → dd ≤ md →
            bp + bd ≤ dp + dd) ∧
          verify_file none true probeP probeD cands mp md =
            ⟨false, some true, some bp, some bd, some b.id⟩) ∧
      (scanBest probeP probeD mp md cands none = none →
        ∀ c ∈ cands, ¬ qualifies probeP probeD mp md c) := by
  refine ⟨?_, ?_, ?_, ?_⟩
  · unfold verify_file
    simp only [Bool.not_eq_true, if_neg]
    cases hs : scanBest probeP probeD mp md cands none with
    | none => simp
    | some b => obtain ⟨b1, b2, b3⟩ := b; simp
  · intro hnone
    have hs : scanBest probeP probeD mp md cands none = none :=
      (scanBest_none probeP probeD mp md cands none).mpr ⟨rfl, hnone⟩
    unfold verify_file
    rw [hs]
    simp
  · intro b bp bd hs
    obtain ⟨h1, _, h3⟩ := scanBest_some probeP probeD mp md cands none b bp bd hs
    rcases h1 with h1 | h1
    · exact absurd h1 (Option.noConfusion)
    · obtain ⟨hmem, hp, hd, hbp, hbd⟩ := h1
      refine ⟨hmem, hp, hd, hbp, hbd, h3, ?_⟩
      unfold verify_file
      rw [hs]
      simp
  · intro hs
    exact ((scanBest_none probeP probeD mp md cands none).mp hs).2

/-- C6, witness: between a qualifying candidate at distances (0, 1) and
a non-qualifying one at distance 12, the scan returns the first with
`similar = true` and both distances. -/
theorem c6_similar_selection_witness :
    verify_file none true (chars ("00ff")) (chars ("0f0e"))
        [⟨1, chars ("00ff"), chars ("0f0f")⟩, ⟨2, chars ("0000"), chars ("0000")⟩] 10 10 =
      ⟨false, some true, some 0, some 1, some 1⟩ :=
  (((c6_similar_selection (chars ("00ff")) (chars ("0f0e"))
    [⟨1, chars ("00ff"), chars ("0f0f")⟩, ⟨2, chars ("0000"), chars ("0000")⟩] 10 10).2.2.1
    ⟨1, chars ("00ff"), chars ("0f0f")⟩ 0 1 (by decide)).2.2.2.2.2.2)

/-! ## Claim C5: phash algorithm -/

theorem blockPairs_filter_drop :
    blockPairs.filter (fun rc => decide (rc ≠ (0, 0))) = blockPairs.drop 1 := by
  decide

theorem phashBlock_eq_map (dct : List (List ℚ)) :
    phashBlock dct = blockPairs.map fun rc => (dct.getD rc.1 []).getD rc.2 0 := by
  unfold phashBlock blockPairs
  rw [List.map_flatMap]
  simp only [List.map_map]
  rfl

theorem map_const_eq_replicate {α β : Type} (l : List α) (c : β) :
    (l.map fun _ => c) = List.replicate l.length c := by
  induction l with
  | nil => rfl
  | cons a as ih => simp [ih, List.replicate_succ]

theorem sum_map_two_mul (l : List (Nat × Nat)) (f : Nat × Nat → Nat) :
    (l.map fun x => 2 * f x).sum = 2 * (l.map f).sum := by
  induction l with
  | nil => simp
  | cons a as ih => simp [ih, Nat.mul_add]

theorem foldl_bits_eq_sum (bits : List Nat) :
    bits.foldl (fun a b => a * 2 + b) 0 =
      (bits.enum.map fun ib => ib.2 * 2 ^ (bits.length - 1 - ib.1)).sum := by
  induction bits using List.reverseRecOn with
  | nil => simp
  | append_singleton l x ih =>
    rw [List.foldl_append]
    simp only [List.foldl_cons, List.foldl_nil]
    rw [ih]
    have henum : (l ++ [x]).enum = l.enum ++ [(l.length, x)] := by
      simp [List.enum_append]
    rw [henum, List.map_append, List.sum_append]
    simp only [List.map_cons, List.map_nil, List.sum_cons, List.sum_nil,
      List.length_append, List.length_cons, List.length_nil]
    have hlast : x * 2 ^ (l.length + (0 + 1) - 1 - l.length) = x := by
      have : l.length + (0 + 1) - 1 - l.length = 0 := by omega
      rw [this, pow_zero, Nat.mul_one]
    have hmap : (l.enum.map fun ib => ib.2 * 2 ^ (l.length + (0 + 1) - 1 - ib.1)).sum
        = 2 * (l.enum.map fun ib => ib.2 * 2 ^ (l.length - 1 - ib.1)).sum := by
      rw [← sum_map_two_mul]
      apply congrArg List.sum
      apply List.map_congr_left
      intro ib hib
      have hilt : ib.1 < l.length := by
        obtain ⟨i, b⟩ := ib
        have h1 := List.mem_enum_iff_getElem?.mp hib
        exact (List.getElem?_eq_some.mp h1).1
      have hexp : l.length + (0 + 1) - 1 - ib.1 = (l.length - 1 - ib.1) + 1 := by omega
      rw [hexp, pow_succ]
      ring
    rw [hlast, hmap]
    omega

theorem foldl_bits_lt :
    ∀ (bits : List Nat) (a k : Nat), (∀ b ∈ bits, b ≤ 1) → a < 2 ^ k →
      bits.foldl (fun a b => a * 2 + b) a < 2 ^ (k + bits.length) := by
  intro bits
  induction bits with
  | nil => intro a k _ h; simpa using h
  | cons b rest ih =>
    intro a k hb h
    rw [List.foldl_cons]
    have hb1 : b ≤ 1 := hb b (List.mem_cons_self _ _)
    have hstep : a * 2 + b < 2 ^ (k + 1) := by
      have hpk : 2 ^ (k + 1) = 2 ^ k * 2 := by ring
      omega
    have hrec := ih (a * 2 + b) (k + 1)
      (fun y hy => hb y (List.mem_cons_of_mem _ hy)) hstep
    have harr : k + 1 + rest.length = k + (rest.length + 1) := by omega
    rw [harr] at hrec
    simpa using hrec

theorem natHexAux_fuel :
    ∀ (n f : Nat), n < f → natHexAux f n = natHexAux (n + 1) n := by
  intro n
  induction n using Nat.strong_induction_on with
  | _ n ih =>
    intro f hf
    match f with
    | f' + 1 =>
      rw [natHexAux]
      by_cases hn : n = 0
      · subst hn
        rw [natHexAux]
        simp
      · rw [if_neg hn]
        conv_rhs => rw [natHexAux]
        rw [if_neg hn]
        have hdiv : n / 16 < n := Nat.div_lt_self (Nat.pos_of_ne_zero hn) (by norm_num)
        rw [ih (n / 16) hdiv f' (by omega), ih (n / 16) hdiv n (by omega)]

theorem natHexAux_step (n : Nat) (hn : n ≠ 0) :
    natHexAux (n + 1) n = natHexAux (n / 16 + 1) (n / 16) ++ [hexDigitChar (n % 16)] := by
  rw [natHexAux, if_neg hn,
    natHexAux_fuel (n / 16) n (Nat.div_lt_self (Nat.pos_of_ne_zero hn) (by norm_num))]

theorem natHexAux_length :
    ∀ (k n : Nat), n < 16 ^ k → (natHexAux (n + 1) n).length ≤ k := by
  intro k
  induction k with
  | zero =>
    intro n h
    have hz : n = 0 := by simpa using h
    subst hz
    simp [natHexAux]
  | succ k ih =>
    intro n h
    by_cases hn : n = 0
    · subst hn; simp [natHexAux]
    · rw [natHexAux_step n hn]
      have hdiv : n / 16 < 16 ^ k := by
        rw [Nat.div_lt_iff_lt_mul (by norm_num)]
        calc n < 16 ^ (k + 1) := h
          _ = 16 ^ k * 16 := by ring
      have hle := ih (n / 16) hdiv
      simp only [List.length_append, List.length_cons, List.length_nil]
      omega

theorem natHexAux_pad :
    ∀ (k n : Nat), n < 16 ^ k →
      List.replicate (k - (natHexAux (n + 1) n).length) '0' ++ natHexAux (n + 1) n =
        (List.range k).map fun i => hexDigitChar (n / 16 ^ (k - 1 - i) % 16) := by
  intro k
  induction k with
  | zero =>
    intro n h
    have hz : n = 0 := by simpa using h
    subst hz
    simp [natHexAux]
  | succ k ih =>
    intro n h
    have hdiv : n / 16 < 16 ^ k := by
      rw [Nat.div_lt_iff_lt_mul (by norm_num)]
      calc n < 16 ^ (k + 1) := h
        _ = 16 ^ k * 16 := by ring
    have hrhs : ((List.range (k + 1)).map fun i => hexDigitChar (n / 16 ^ (k + 1 - 1 - i) % 16)) =
        ((List.range k).map fun i => hexDigitChar ((n / 16) / 16 ^ (k - 1 - i) % 16)) ++
          [hexDigitChar (n % 16)] := by
      rw [List.range_succ k, List.map_append]
      congr 1
      · apply List.map_congr_left
        intro i hi
        have hik : i < k := List.mem_range.mp hi
        have hexp : k + 1 - 1 - i = (k - 1 - i) + 1 := by omega
        rw [hexp]
        have hdd : n / 16 ^ ((k - 1 - i) + 1) = (n / 16) / 16 ^ (k - 1 - i) := by
          rw [Nat.div_div_eq_div_mul]
          congr 1
          ring
        rw [hdd]
      · simp
    rw [hrhs]
    by_cases hn : n = 0
    · subst hn
      rw [show natHexAux (0 + 1) 0 = [] from rfl]
      simp only [List.length_nil, Nat.sub_zero, List.append_nil]
      rw [List.replicate_succ' k '0']
      congr 1
      simp only [Nat.zero_div, Nat.zero_mod]
      rw [show hexDigitChar 0 = '0' from by decide]
      rw [map_const_eq_replicate, List.length_range]
    · rw [natHexAux_step n hn]
      have hlen := natHexAux_length k (n / 16) hdiv
      rw [List.length_append]
      simp only [List.length_cons, List.length_nil]
      have harith : k + 1 - ((natHexAux (n / 16 + 1) (n / 16)).length + (0 + 1)) =
          k - (natHexAux (n / 16 + 1) (n / 16)).length := by omega
      rw [harith, ← List.append_assoc, ih (n / 16) hdiv]

theorem formatHex16_eq (n : Nat) (h : n < 16 ^ 16) :
    formatHex16 n = (List.range 16).map fun i => hexDigitChar (n / 16 ^ (15 - i) % 16) := by
  by_cases hn : n = 0
  · subst hn; decide
  · unfold formatHex16 natHex
    rw [if_neg hn]
    have hpad := natHexAux_pad 16 n h
    rw [hpad]

/-- The post-DCT stage of the source phash (block, median, bits,
16-hex rendering) equals the spec's description of it. -/
theorem phashHex_eq (dct : List (List ℚ)) :
    formatHex16 (phashVal dct) = phashSpecOfDct dct := by
  simp only [phashVal, phashSpecOfDct]
  have hblock := phashBlock_eq_map dct
  have hothers : ((blockPairs.filter fun rc => decide (rc ≠ (0, 0))).map
      fun rc => (dct.getD rc.1 []).getD rc.2 0) = (phashBlock dct).drop 1 := by
    rw [blockPairs_filter_drop, hblock, List.map_drop]
  have hlen : ((phashBlock dct).drop 1).length = 63 := by
    rw [hblock, List.length_drop, List.length_map]
    decide
  have hsortlen : (sortQ ((phashBlock dct).drop 1)).length = 63 := by
    unfold sortQ
    rw [(List.perm_insertionSort _ _).length_eq, hlen]
  rw [hothers, hsortlen]
  have hidx : (63 : Nat) / 2 = (63 - 1) / 2 := by norm_num
  rw [hidx]
  generalize (sortQ ((phashBlock dct).drop 1)).getD ((63 - 1) / 2) (0 : ℚ) = m
  have hbits : ((phashBlock dct).map fun v => if m < v then (1 : Nat) else 0) =
      blockPairs.map fun rc =>
        if m < (dct.getD rc.1 []).getD rc.2 0 then (1 : Nat) else 0 := by
    rw [hblock, List.map_map]
    apply List.map_congr_left
    intro rc _
    rfl
  rw [hbits]
  set bits := blockPairs.map fun rc =>
    if m < (dct.getD rc.1 []).getD rc.2 0 then (1 : Nat) else 0 with hbitsdef
  have hbitslen : bits.length = 64 := by
    rw [hbitsdef, List.length_map]
    decide
  have hval := foldl_bits_eq_sum bits
  rw [hbitslen] at hval
  rw [hval]
  have hlt : bits.foldl (fun a b => a * 2 + b) 0 < 2 ^ 64 := by
    have hmem : ∀ b ∈ bits, b ≤ 1 := by
      intro b hb
      rw [hbitsdef] at hb
      obtain ⟨rc, _, hrc⟩ := List.mem_map.mp hb
      rw [← hrc]
      split <;> omega
    have := foldl_bits_lt bits 0 0 hmem (by norm_num)
    rw [hbitslen] at this
    simpa using this
  rw [hval] at hlt
  have h16 : ((bits.enum.map fun ib => ib.2 * 2 ^ (64 - 1 - ib.1)).sum) < 16 ^ 16 := by
    have he : (16 : Nat) ^ 16 = 2 ^ 64 := by norm_num
    rw [he]
    exact hlt
  rw [formatHex16_eq _ h16]

/-- C5: the source phash pipeline from the grayscale grid on — DCT with
the given cosine/normalization tables, top-left 8 by 8 block, median of
the 63 coefficients excluding the DC term, one bit per all 64
coefficients (1 iff the coefficient exceeds that median), row-major
64-bit accumulation, 16-character lowercase zero-padded hex — equals
the spec's description of the same computation (grayscale conversion
and 32x32 Lanczos resampling happen inside PIL, outside this
repository, so both sides start from the resized grid). -/
theorem c5_phash (small : List (List ℚ)) (cosTable : List (List ℚ)) (alpha : List ℚ) :
    phash_from_matrix small cosTable alpha = phashSpec small cosTable alpha := by
  unfold phash_from_matrix phashSpec
  exact phashHex_eq _

end SkyFrame
